import Mathlib

/-!
Verification development for the journal application (`Archive/v1.2/app.js`).

The JavaScript source is shallowly embedded: strings are Lean `String`,
JS objects become structures, fields that JS leaves `undefined`/`null`
become `Option` values or the empty string (both are falsy in JS), and
the DOM / `localStorage` side effects are dropped while the in-memory
state transitions are kept.  `localeCompare` is modelled as code-point
lexicographic comparison, and the handful of regular expressions used by
the search-scope parser are translated into explicit character scanners.
-/

namespace JournalApp

/-! ## JS string primitives -/

/-- JS `x || y` for strings: the empty string is falsy. -/
def strOr (x y : String) : String := if x = "" then y else x

/-- JS truthiness of a possibly-missing string field. -/
def truthy : Option String → Bool
  | none => false
  | some s => s ≠ ""

/-- JS `x || d` where `x` is a possibly-missing string field. -/
def jsOr (x : Option String) (d : String) : String :=
  match x with
  | none => d
  | some s => if s = "" then d else s

@[simp] theorem strOr_empty_right (a : String) : strOr a "" = a := by
  unfold strOr; split <;> simp_all

@[simp] theorem strOr_of_ne (a b : String) (h : a ≠ "") : strOr a b = a := by
  unfold strOr; simp [h]

/-- The whitespace class used by JS `\s` and `String.prototype.trim`. -/
def isJsWs (c : Char) : Bool := c.isWhitespace

/-- `String.prototype.trim`, on the underlying character list. -/
def trimL (l : List Char) : List Char :=
  ((l.dropWhile isJsWs).reverse.dropWhile isJsWs).reverse

def jsTrim (s : String) : String := ⟨trimL s.data⟩

/-- `replace(/\s+/g, " ")`: collapse every whitespace run to one space.
`prevWs` records whether the previous character was part of a run. -/
def collapseAux : Bool → List Char → List Char
  | _, [] => []
  | prevWs, c :: rest =>
    if isJsWs c then
      if prevWs then collapseAux true rest
      else ' ' :: collapseAux true rest
    else c :: collapseAux false rest

def collapseWs (s : String) : String := ⟨collapseAux false s.data⟩

/-- ASCII lower-casing of one character (the fragment of JS
`toLowerCase` that the application's data exercises). -/
def lowerChar (c : Char) : Char :=
  if 65 ≤ c.toNat ∧ c.toNat ≤ 90 then Char.ofNat (c.toNat + 32) else c

def jsLower (s : String) : String := ⟨s.data.map lowerChar⟩

/-! ## Code-point comparison (the model of `localeCompare`) -/

def charCmp (a b : Char) : Ordering := compare a.toNat b.toNat

def listCmp : List Char → List Char → Ordering
  | [], [] => .eq
  | [], _ :: _ => .lt
  | _ :: _, [] => .gt
  | a :: as, b :: bs =>
    match charCmp a b with
    | .eq => listCmp as bs
    | o => o

def strCmp (a b : String) : Ordering := listCmp a.data b.data

/-- Lexicographic comparison of equal-length string tuples, used to state
that the entry comparator is lexicographic in its four fields. -/
def strListCmp : List String → List String → Ordering
  | [], [] => .eq
  | [], _ :: _ => .lt
  | _ :: _, [] => .gt
  | a :: as, b :: bs =>
    match strCmp a b with
    | .eq => strListCmp as bs
    | o => o

theorem charCmp_eq_iff (a b : Char) : charCmp a b = .eq ↔ a = b := by
  unfold charCmp
  rw [Nat.compare_eq_eq]
  constructor
  · intro h
    exact Char.eq_of_val_eq (UInt32.toNat.inj h)
  · intro h; rw [h]

theorem charCmp_swap (a b : Char) : (charCmp a b).swap = charCmp b a := by
  unfold charCmp
  rcases h : compare a.toNat b.toNat with _ | _ | _
  · rw [Nat.compare_eq_lt] at h
    show Ordering.gt = _
    rw [eq_comm, Nat.compare_eq_gt]
    exact h
  · rw [Nat.compare_eq_eq] at h
    show Ordering.eq = _
    rw [eq_comm, Nat.compare_eq_eq]
    exact h.symm
  · rw [Nat.compare_eq_gt] at h
    show Ordering.lt = _
    rw [eq_comm, Nat.compare_eq_lt]
    exact h

theorem charCmp_lt_trans {a b c : Char} (h₁ : charCmp a b = .lt)
    (h₂ : charCmp b c = .lt) : charCmp a c = .lt := by
  unfold charCmp at *
  rw [Nat.compare_eq_lt] at *
  omega

theorem listCmp_eq_iff (as bs : List Char) : listCmp as bs = .eq ↔ as = bs := by
  induction as generalizing bs with
  | nil => cases bs <;> simp [listCmp]
  | cons a as ih =>
    cases bs with
    | nil => simp [listCmp]
    | cons b bs =>
      simp only [listCmp]
      rcases h : charCmp a b with _ | _ | _
      · simp only []
        constructor
        · intro hx; cases hx
        · intro hx
          rw [List.cons.injEq] at hx
          rw [hx.1, charCmp_eq_iff b b |>.mpr rfl] at h
          cases h
      · rw [charCmp_eq_iff] at h
        subst h
        simp [ih]
      · simp only []
        constructor
        · intro hx; cases hx
        · intro hx
          rw [List.cons.injEq] at hx
          rw [hx.1, charCmp_eq_iff b b |>.mpr rfl] at h
          cases h

theorem listCmp_swap (as bs : List Char) : (listCmp as bs).swap = listCmp bs as := by
  induction as generalizing bs with
  | nil => cases bs <;> simp [listCmp, Ordering.swap]
  | cons a as ih =>
    cases bs with
    | nil => simp [listCmp, Ordering.swap]
    | cons b bs =>
      simp only [listCmp]
      rcases h : charCmp a b with _ | _ | _
      · rw [← charCmp_swap a b, h]; simp [Ordering.swap]
      · rw [← charCmp_swap a b, h]
        simpa [Ordering.swap] using ih bs
      · rw [← charCmp_swap a b, h]; simp [Ordering.swap]

theorem listCmp_lt_trans {as bs cs : List Char} (h₁ : listCmp as bs = .lt)
    (h₂ : listCmp bs cs = .lt) : listCmp as cs = .lt := by
  induction as generalizing bs cs with
  | nil =>
    cases cs with
    | nil =>
      cases bs with
      | nil => cases h₁
      | cons b bs => cases h₂
    | cons c cs => simp [listCmp]
  | cons a as ih =>
    cases bs with
    | nil => cases h₁
    | cons b bs =>
      cases cs with
      | nil => cases h₂
      | cons c cs =>
        simp only [listCmp] at h₁ h₂ ⊢
        rcases hab : charCmp a b with _ | _ | _ <;> rw [hab] at h₁
        · rcases hbc : charCmp b c with _ | _ | _ <;> rw [hbc] at h₂
          · rw [charCmp_lt_trans hab hbc]
          · rw [charCmp_eq_iff] at hbc; subst hbc; rw [hab]
          · exact Ordering.noConfusion h₂
        · rw [charCmp_eq_iff] at hab
          subst hab
          rcases hbc : charCmp a c with _ | _ | _ <;> rw [hbc] at h₂
          · exact ih h₁ h₂
          · exact Ordering.noConfusion h₂
        · exact Ordering.noConfusion h₁

theorem strCmp_eq_iff (a b : String) : strCmp a b = .eq ↔ a = b := by
  unfold strCmp
  rw [listCmp_eq_iff]
  exact ⟨String.ext, fun h => by rw [h]⟩

theorem strCmp_swap (a b : String) : (strCmp a b).swap = strCmp b a :=
  listCmp_swap a.data b.data

theorem strCmp_lt_trans {a b c : String} (h₁ : strCmp a b = .lt)
    (h₂ : strCmp b c = .lt) : strCmp a c = .lt :=
  listCmp_lt_trans h₁ h₂

theorem strCmp_notGt_trans {a b c : String} (h₁ : strCmp a b ≠ .gt)
    (h₂ : strCmp b c ≠ .gt) : strCmp a c ≠ .gt := by
  rcases hab : strCmp a b with _ | _ | _
  · rcases hbc : strCmp b c with _ | _ | _
    · rw [strCmp_lt_trans hab hbc]; intro hx; cases hx
    · rw [strCmp_eq_iff] at hbc; subst hbc; rw [hab]; intro hx; cases hx
    · exact absurd hbc h₂
  · rw [strCmp_eq_iff] at hab; subst hab; exact h₂
  · exact absurd hab h₁

theorem strCmp_notGt_total (a b : String) : strCmp a b ≠ .gt ∨ strCmp b a ≠ .gt := by
  rcases h : strCmp a b with _ | _ | _
  · left; intro hx; cases hx
  · left; intro hx; cases hx
  · right
    rw [← strCmp_swap a b, h]
    intro hx; cases hx

theorem strListCmp_eq_iff (as bs : List String) : strListCmp as bs = .eq ↔ as = bs := by
  induction as generalizing bs with
  | nil => cases bs <;> simp [strListCmp]
  | cons a as ih =>
    cases bs with
    | nil => simp [strListCmp]
    | cons b bs =>
      simp only [strListCmp]
      rcases h : strCmp a b with _ | _ | _
      · simp only []
        constructor
        · intro hx; cases hx
        · intro hx
          rw [List.cons.injEq] at hx
          rw [hx.1, strCmp_eq_iff b b |>.mpr rfl] at h
          cases h
      · rw [strCmp_eq_iff] at h
        subst h
        simp [ih]
      · simp only []
        constructor
        · intro hx; cases hx
        · intro hx
          rw [List.cons.injEq] at hx
          rw [hx.1, strCmp_eq_iff b b |>.mpr rfl] at h
          cases h

theorem strListCmp_swap (as bs : List String) :
    (strListCmp as bs).swap = strListCmp bs as := by
  induction as generalizing bs with
  | nil => cases bs <;> simp [strListCmp, Ordering.swap]
  | cons a as ih =>
    cases bs with
    | nil => simp [strListCmp, Ordering.swap]
    | cons b bs =>
      simp only [strListCmp]
      rcases h : strCmp a b with _ | _ | _
      · rw [← strCmp_swap a b, h]; simp [Ordering.swap]
      · rw [← strCmp_swap a b, h]
        simpa [Ordering.swap] using ih bs
      · rw [← strCmp_swap a b, h]; simp [Ordering.swap]

theorem strListCmp_lt_trans {as bs cs : List String} (h₁ : strListCmp as bs = .lt)
    (h₂ : strListCmp bs cs = .lt) : strListCmp as cs = .lt := by
  induction as generalizing bs cs with
  | nil =>
    cases cs with
    | nil =>
      cases bs with
      | nil => cases h₁
      | cons b bs => cases h₂
    | cons c cs => simp [strListCmp]
  | cons a as ih =>
    cases bs with
    | nil => cases h₁
    | cons b bs =>
      cases cs with
      | nil => cases h₂
      | cons c cs =>
        simp only [strListCmp] at h₁ h₂ ⊢
        rcases hab : strCmp a b with _ | _ | _ <;> rw [hab] at h₁
        · rcases hbc : strCmp b c with _ | _ | _ <;> rw [hbc] at h₂
          · rw [strCmp_lt_trans hab hbc]
          · rw [strCmp_eq_iff] at hbc; subst hbc; rw [hab]
          · exact Ordering.noConfusion h₂
        · rw [strCmp_eq_iff] at hab
          subst hab
          rcases hbc : strCmp a c with _ | _ | _ <;> rw [hbc] at h₂
          · exact ih h₁ h₂
          · exact Ordering.noConfusion h₂
        · exact Ordering.noConfusion h₁

theorem strListCmp_notGt_trans {as bs cs : List String} (h₁ : strListCmp as bs ≠ .gt)
    (h₂ : strListCmp bs cs ≠ .gt) : strListCmp as cs ≠ .gt := by
  rcases hab : strListCmp as bs with _ | _ | _
  · rcases hbc : strListCmp bs cs with _ | _ | _
    · rw [strListCmp_lt_trans hab hbc]; intro hx; cases hx
    · rw [strListCmp_eq_iff] at hbc; subst hbc; rw [hab]; intro hx; cases hx
    · exact absurd hbc h₂
  · rw [strListCmp_eq_iff] at hab; subst hab; exact h₂
  · exact absurd hab h₁

end JournalApp

/-! ## Trim and case lemmas -/

namespace JournalApp

theorem dropWhile_cons_head {α : Type} (p : α → Bool) :
    ∀ (l : List α) (c : α) (t : List α), l.dropWhile p = c :: t → p c = false := by
  intro l
  induction l with
  | nil => intro c t h; cases h
  | cons x xs ih =>
    intro c t h
    rw [List.dropWhile_cons] at h
    by_cases hx : p x
    · rw [if_pos hx] at h
      exact ih c t h
    · rw [if_neg hx] at h
      injection h with h1 _
      rw [← h1]
      simpa using hx

theorem dropWhile_idem {α : Type} (p : α → Bool) (l : List α) :
    (l.dropWhile p).dropWhile p = l.dropWhile p := by
  cases h : l.dropWhile p with
  | nil => rfl
  | cons c t =>
    rw [List.dropWhile_cons, dropWhile_cons_head p l c t h]
    simp

theorem trimL_idem (l : List Char) : trimL (trimL l) = trimL l := by
  unfold trimL
  have hsplit : l.dropWhile isJsWs =
      ((l.dropWhile isJsWs).reverse.dropWhile isJsWs).reverse ++
        ((l.dropWhile isJsWs).reverse.takeWhile isJsWs).reverse := by
    conv_lhs => rw [← List.reverse_reverse (l.dropWhile isJsWs),
      ← List.takeWhile_append_dropWhile isJsWs (l.dropWhile isJsWs).reverse]
    rw [List.reverse_append]
  have h1 : (((l.dropWhile isJsWs).reverse.dropWhile isJsWs).reverse).dropWhile isJsWs =
      ((l.dropWhile isJsWs).reverse.dropWhile isJsWs).reverse := by
    cases hbv : ((l.dropWhile isJsWs).reverse.dropWhile isJsWs).reverse with
    | nil => rfl
    | cons c t =>
      have hla : l.dropWhile isJsWs =
          c :: (t ++ ((l.dropWhile isJsWs).reverse.takeWhile isJsWs).reverse) := by
        conv_lhs => rw [hsplit]
        rw [hbv]
        simp
      have hc : isJsWs c = false := dropWhile_cons_head isJsWs l c _ hla
      rw [List.dropWhile_cons, hc]
      simp
  rw [h1, List.reverse_reverse, dropWhile_idem]

theorem jsTrim_idem (s : String) : jsTrim (jsTrim s) = jsTrim s := by
  unfold jsTrim
  exact congrArg String.mk (trimL_idem s.data)

theorem jsLower_eq_empty_iff (s : String) : jsLower s = "" ↔ s = "" := by
  unfold jsLower
  constructor
  · intro h
    have := congrArg String.data h
    simp only [] at this
    rcases hd : s.data with _ | ⟨c, t⟩
    · exact String.ext hd
    · rw [hd] at this
      simp at this
  · intro h
    rw [h]
    rfl

/-! ## Data model (`Entry`, `Tag`, `Notebook`) and raw (pre-migration) records -/

/-- A tag object as stored on an entry.  The optional on-image position
(`x`/`y`) is out of scope here: no claim depends on it.  `color` uses
`""` for JS `null`. -/
structure Tag where
  id : String
  text : String
  color : String
deriving DecidableEq

/-- The current in-memory entry shape (the result of `ensureEntryShape` /
`migrateEntry`).  `imageId` uses `""` for JS `null`. -/
structure Entry where
  id : String
  notebookId : String
  date : String
  title : String
  body : String
  imageId : String
  tags : List Tag
  attachments : List String
  createdAt : String
  updatedAt : String
deriving DecidableEq

structure Notebook where
  id : String
  name : String
  createdAt : String
  updatedAt : String
deriving DecidableEq

/-- A raw entry record of unknown vintage, as loaded from storage:
every field may be missing (`none`) and string fields may be empty,
both of which are falsy in JS. -/
structure RawEntry where
  id : Option String
  notebookId : Option String
  date : Option String
  title : Option String
  body : Option String
  imageId : Option String
  tags : Option (List Tag)
  attachments : Option (List String)
  createdAt : Option String
  updatedAt : Option String
deriving DecidableEq

structure RawNotebook where
  id : Option String
  name : Option String
  createdAt : Option String
  updatedAt : Option String
deriving DecidableEq

def Notebook.toRaw (n : Notebook) : RawNotebook :=
  ⟨some n.id, some n.name, some n.createdAt, some n.updatedAt⟩

/-! ## Migration engine (`migrateEntry`, `ensureNotebookShape`, `migrateNotebooks`) -/

/-- The `createdAt` backfill of `migrateEntry` (runs first). -/
def migratedCreatedAt (nowIso : String) (e : RawEntry) : Option String :=
  if ¬ truthy e.createdAt ∧ truthy e.updatedAt then e.updatedAt
  else if ¬ truthy e.createdAt then some nowIso
  else e.createdAt

/-- The `updatedAt` backfill of `migrateEntry`; it observes the already
backfilled `createdAt` (the JS mutates the record in place). -/
def migratedUpdatedAt (nowIso : String) (e : RawEntry) : Option String :=
  if ¬ truthy e.updatedAt ∧ truthy (migratedCreatedAt nowIso e) then migratedCreatedAt nowIso e
  else if ¬ truthy e.updatedAt then some nowIso
  else e.updatedAt

/-- `migrateEntry` from `app.js`: fill missing fields with safe defaults.
`nowIso` stands for `new Date().toISOString()` and `today` for
`formatDateForInput(new Date())`. -/
def migrateEntry (nowIso today : String) (e : RawEntry) : RawEntry :=
  { e with
    notebookId := if truthy e.notebookId then e.notebookId else some "default"
    tags := some (e.tags.getD [])
    attachments := some (e.attachments.getD [])
    createdAt := migratedCreatedAt nowIso e
    updatedAt := migratedUpdatedAt nowIso e
    date := if truthy e.date then e.date else some today
    title := some (jsOr e.title "")
    body := some (jsOr e.body "") }

/-- `ensureNotebookShape` from `app.js`.  `gid` stands for `generateId()`
and `now` for `new Date().toISOString()`. -/
def ensureNotebookShape (gid now : String) (n : RawNotebook) : Notebook :=
  { id := jsOr n.id gid
    name := strOr (jsTrim (jsOr n.name "")) "Journal"
    createdAt := jsOr n.createdAt now
    updatedAt := jsOr n.updatedAt now }

/-- `migrateNotebooks` from `app.js`: shape every record, then guarantee a
non-empty collection and the presence of the `"default"` notebook. -/
def migrateNotebooks (now gid : String) (l : List RawNotebook) : List Notebook :=
  let migrated := l.map (ensureNotebookShape gid now)
  let migrated := if migrated.isEmpty then [⟨"default", "Journal", now, now⟩] else migrated
  if migrated.any (fun n => n.id == "default") then migrated
  else ⟨"default", "Journal", now, now⟩ :: migrated

/-- `ensureEntryShape` from `app.js`. -/
def ensureEntryShape (gid now today : String) (e : RawEntry) : Entry :=
  { id := jsOr e.id gid
    notebookId := jsOr e.notebookId "default"
    date := jsOr e.date today
    title := jsOr e.title ""
    body := jsOr e.body ""
    imageId := jsOr e.imageId ""
    tags := e.tags.getD []
    attachments := e.attachments.getD []
    createdAt := jsOr e.createdAt now
    updatedAt := jsOr e.updatedAt now }

end JournalApp

namespace JournalApp

/-! ## Migration idempotence helper lemmas -/

theorem jsOr_jsOr (x : Option String) (d : String) :
    jsOr (some (jsOr x d)) d = jsOr x d := by
  cases x with
  | none => simp [jsOr]
  | some s =>
    simp only [jsOr]
    by_cases hs : s = ""
    · simp [hs]
    · simp [hs]

theorem truthy_migratedCreatedAt (n : String) (e : RawEntry) (hn : n ≠ "") :
    truthy (migratedCreatedAt n e) = true := by
  unfold migratedCreatedAt
  split
  · next h => exact h.2
  · split
    · simp [truthy, hn]
    · next _ h => simpa using h

theorem truthy_migratedUpdatedAt (n : String) (e : RawEntry) (hn : n ≠ "") :
    truthy (migratedUpdatedAt n e) = true := by
  unfold migratedUpdatedAt
  split
  · next h => exact h.2
  · split
    · simp [truthy, hn]
    · next _ h => simpa using h

theorem jsTrim_journal : jsTrim "Journal" = "Journal" := by decide

theorem jsOr_some_of_ne (x d : String) (h : x ≠ "") : jsOr (some x) d = x := by
  simp [jsOr, h]

/-- Filling a falsy optional string with a non-empty default always
yields a truthy value. -/
theorem truthy_fill (x : Option String) (d : String) (hd : d ≠ "") :
    truthy (if truthy x then x else some d) = true := by
  cases hx : truthy x
  · rw [if_neg (by simp [hx])]
    simp [truthy, hd]
  · rw [if_pos (by simp [hx])]
    exact hx

theorem migratedCreatedAt_of_truthy (n : String) (f : RawEntry)
    (h : truthy f.createdAt = true) : migratedCreatedAt n f = f.createdAt := by
  unfold migratedCreatedAt
  have h1 : ¬(¬ truthy f.createdAt = true ∧ truthy f.updatedAt = true) := by simp [h]
  have h2 : ¬(¬ truthy f.createdAt = true) := by simp [h]
  rw [if_neg h1, if_neg h2]

theorem migratedUpdatedAt_of_truthy (n : String) (f : RawEntry)
    (h : truthy f.updatedAt = true) : migratedUpdatedAt n f = f.updatedAt := by
  unfold migratedUpdatedAt
  have h1 : ¬(¬ truthy f.updatedAt = true ∧ truthy (migratedCreatedAt n f) = true) := by
    simp [h]
  have h2 : ¬(¬ truthy f.updatedAt = true) := by simp [h]
  rw [if_neg h1, if_neg h2]

/-- Claim C4: entry migration is idempotent — re-running `migrateEntry`
on an already-migrated record is a no-op (for any later `now`/`today`
values), and likewise re-running `ensureNotebookShape` on an
already-shaped notebook is a no-op.  The first-run `now`/`today` values
are non-empty because real ISO timestamps and dates are non-empty. -/
theorem migrateEntry_idem (e : RawEntry) (n₁ t₁ n₂ t₂ : String)
    (hn : n₁ ≠ "") (ht : t₁ ≠ "") :
    migrateEntry n₂ t₂ (migrateEntry n₁ t₁ e) = migrateEntry n₁ t₁ e
  ∧ ∀ (m : RawNotebook) (g₁ w₁ g₂ w₂ : String), g₁ ≠ "" → w₁ ≠ "" →
      ensureNotebookShape g₂ w₂ (ensureNotebookShape g₁ w₁ m).toRaw =
        ensureNotebookShape g₁ w₁ m := by
  constructor
  · have hC : truthy (migratedCreatedAt n₁ e) = true := truthy_migratedCreatedAt n₁ e hn
    have hU : truthy (migratedUpdatedAt n₁ e) = true := truthy_migratedUpdatedAt n₁ e hn
    simp only [migrateEntry, RawEntry.mk.injEq]
    refine ⟨trivial, ?_, ?_, ?_, ?_, trivial, ?_, ?_, ?_, ?_⟩
    · exact if_pos (truthy_fill e.notebookId "default" (by decide))
    · exact if_pos (truthy_fill e.date t₁ ht)
    · rw [jsOr_jsOr]
    · rw [jsOr_jsOr]
    · simp
    · simp
    · rw [migratedCreatedAt_of_truthy n₂ _ hC]
    · rw [migratedUpdatedAt_of_truthy n₂ _ hU]
  · intro m g₁ w₁ g₂ w₂ hg hw
    have hid : jsOr m.id g₁ ≠ "" := by
      cases hmi : m.id with
      | none => simpa [jsOr] using hg
      | some s =>
        simp only [jsOr]
        by_cases hs : s = "" <;> simp [hs, hg]
    have hname : strOr (jsTrim (jsOr m.name "")) "Journal" ≠ "" ∧
        jsTrim (strOr (jsTrim (jsOr m.name "")) "Journal") =
          strOr (jsTrim (jsOr m.name "")) "Journal" := by
      by_cases h0 : jsTrim (jsOr m.name "") = ""
      · rw [h0]
        refine ⟨by decide, ?_⟩
        show jsTrim (strOr "" "Journal") = strOr "" "Journal"
        rw [show strOr "" "Journal" = "Journal" from rfl, jsTrim_journal]
      · rw [strOr_of_ne _ _ h0]
        exact ⟨h0, jsTrim_idem _⟩
    have hca : jsOr m.createdAt w₁ ≠ "" := by
      cases hmc : m.createdAt with
      | none => simpa [jsOr] using hw
      | some s =>
        simp only [jsOr]
        by_cases hs : s = "" <;> simp [hs, hw]
    have hua : jsOr m.updatedAt w₁ ≠ "" := by
      cases hmu : m.updatedAt with
      | none => simpa [jsOr] using hw
      | some s =>
        simp only [jsOr]
        by_cases hs : s = "" <;> simp [hs, hw]
    simp only [ensureNotebookShape, Notebook.toRaw, Notebook.mk.injEq]
    refine ⟨?_, ?_, ?_, ?_⟩
    · exact jsOr_some_of_ne _ _ hid
    · rw [jsOr_some_of_ne _ _ hname.1, hname.2, strOr_of_ne _ _ hname.1]
    · exact jsOr_some_of_ne _ _ hca
    · exact jsOr_some_of_ne _ _ hua

/-- Witness for C4 at a fully-absent raw record and a raw notebook. -/
theorem migrateEntry_idem_witness :
    migrateEntry "N2" "D2"
        (migrateEntry "2025-01-01T00:00:00.000Z" "2025-01-01"
          ⟨none, none, none, none, none, none, none, none, none, none⟩) =
      migrateEntry "2025-01-01T00:00:00.000Z" "2025-01-01"
        ⟨none, none, none, none, none, none, none, none, none, none⟩
  ∧ ensureNotebookShape "g2" "w2"
        (ensureNotebookShape "g1" "w1" ⟨none, some "  My  Journal ", none, none⟩).toRaw =
      ensureNotebookShape "g1" "w1" ⟨none, some "  My  Journal ", none, none⟩ := by
  have h := migrateEntry_idem ⟨none, none, none, none, none, none, none, none, none, none⟩
    "2025-01-01T00:00:00.000Z" "2025-01-01" "N2" "D2" (by decide) (by decide)
  exact ⟨h.1, h.2 ⟨none, some "  My  Journal ", none, none⟩ "g1" "w1" "g2" "w2"
    (by decide) (by decide)⟩

end JournalApp

namespace JournalApp

/-! ## A stable structural sort (the model of `Array.prototype.sort`)

`List.mergeSort` is defined by well-founded recursion, which the kernel
cannot evaluate on concrete inputs, so the embedding uses a stable
insertion sort instead.  JS engines guarantee a stable sort; insertion
sort inserting each earlier element before later tied elements has the
same stable behaviour for any comparator-induced `le`. -/

def insertLe {α : Type} (le : α → α → Bool) (x : α) : List α → List α
  | [] => [x]
  | y :: ys => if le x y then x :: y :: ys else y :: insertLe le x ys

def sortLe {α : Type} (le : α → α → Bool) : List α → List α
  | [] => []
  | x :: xs => insertLe le x (sortLe le xs)

theorem insertLe_perm {α : Type} (le : α → α → Bool) (x : α) (l : List α) :
    (insertLe le x l).Perm (x :: l) := by
  induction l with
  | nil => exact List.Perm.refl _
  | cons y ys ih =>
    simp only [insertLe]
    split
    · exact List.Perm.refl _
    · exact ((ih.cons y).trans (List.Perm.swap x y ys))

theorem sortLe_perm {α : Type} (le : α → α → Bool) (l : List α) :
    (sortLe le l).Perm l := by
  induction l with
  | nil => exact List.Perm.refl _
  | cons x xs ih =>
    exact (insertLe_perm le x (sortLe le xs)).trans (ih.cons x)

theorem insertLe_pairwise {α : Type} (le : α → α → Bool)
    (htrans : ∀ a b c, le a b = true → le b c = true → le a c = true)
    (htotal : ∀ a b, (le a b || le b a) = true)
    (x : α) (l : List α) (h : l.Pairwise (fun a b => le a b = true)) :
    (insertLe le x l).Pairwise (fun a b => le a b = true) := by
  induction l with
  | nil => simp [insertLe]
  | cons y ys ih =>
    simp only [insertLe]
    rcases List.pairwise_cons.mp h with ⟨hy, hys⟩
    split
    · next hxy =>
      refine List.pairwise_cons.mpr ⟨?_, h⟩
      intro z hz
      rcases List.mem_cons.mp hz with hzy | hz
      · rw [hzy]; exact hxy
      · exact htrans x y z hxy (hy _ hz)
    · next hxy =>
      have hyx : le y x = true := by
        rcases Bool.or_eq_true_iff.mp (htotal x y) with h1 | h1
        · exact absurd h1 hxy
        · exact h1
      refine List.pairwise_cons.mpr ⟨?_, ih hys⟩
      intro z hz
      have hmem := (insertLe_perm le x ys).mem_iff.mp hz
      rcases List.mem_cons.mp hmem with hzx | hzys
      · rw [hzx]; exact hyx
      · exact hy _ hzys

theorem sortLe_pairwise {α : Type} (le : α → α → Bool)
    (htrans : ∀ a b c, le a b = true → le b c = true → le a c = true)
    (htotal : ∀ a b, (le a b || le b a) = true)
    (l : List α) : (sortLe le l).Pairwise (fun a b => le a b = true) := by
  induction l with
  | nil => exact List.Pairwise.nil
  | cons x xs ih => exact insertLe_pairwise le htrans htotal x (sortLe le xs) ih

/-! ## Entry repository: chronological ordering (`getChronologicallySortedEntries`) -/

/-- `e.notebookId || "default"`, the journal an entry belongs to. -/
def entryNbId (e : Entry) : String := strOr e.notebookId "default"

/-- `getEntriesForActiveNotebook` from `app.js`. -/
def getEntriesForActiveNotebook (entries : List Entry) (activeId : String) : List Entry :=
  entries.filter (fun e => entryNbId e == activeId)

/-- The comparator of `getChronologicallySortedEntries`:
date, then createdAt, then updatedAt, then id (each `|| ""`). -/
def entryCmp (a b : Entry) : Ordering :=
  if strOr a.date "" ≠ strOr b.date "" then strCmp (strOr a.date "") (strOr b.date "")
  else if strOr a.createdAt "" ≠ strOr b.createdAt "" then
    strCmp (strOr a.createdAt "") (strOr b.createdAt "")
  else if strOr a.updatedAt "" ≠ strOr b.updatedAt "" then
    strCmp (strOr a.updatedAt "") (strOr b.updatedAt "")
  else strCmp (strOr a.id "") (strOr b.id "")

/-- `comparator(a, b) ≤ 0`, the ordering produced by `Array.sort`. -/
def entryLe (a b : Entry) : Bool :=
  match entryCmp a b with
  | .gt => false
  | _ => true

/-- `getChronologicallySortedEntries` from `app.js` (the global
`entries`/`activeNotebookId` state is passed explicitly). -/
def getChronologicallySortedEntries (entries : List Entry) (activeId : String) : List Entry :=
  sortLe entryLe (getEntriesForActiveNotebook entries activeId)

@[simp] theorem strCmp_self (a : String) : strCmp a a = .eq :=
  (strCmp_eq_iff a a).mpr rfl

/-- The comparator is exactly lexicographic comparison of the four-field key. -/
theorem entryCmp_eq_key (a b : Entry) :
    entryCmp a b = strListCmp [a.date, a.createdAt, a.updatedAt, a.id]
      [b.date, b.createdAt, b.updatedAt, b.id] := by
  simp only [entryCmp, strOr_empty_right, strListCmp]
  by_cases h1 : a.date = b.date
  · rw [if_neg (by simp [h1]), h1, strCmp_self]
    by_cases h2 : a.createdAt = b.createdAt
    · rw [if_neg (by simp [h2]), h2, strCmp_self]
      by_cases h3 : a.updatedAt = b.updatedAt
      · rw [if_neg (by simp [h3]), h3, strCmp_self]
        rcases hx : strCmp a.id b.id with _ | _ | _ <;> rfl
      · rw [if_pos (by simp [h3])]
        rcases hx : strCmp a.updatedAt b.updatedAt with _ | _ | _
        · rfl
        · exact absurd ((strCmp_eq_iff _ _).mp hx) h3
        · rfl
    · rw [if_pos (by simp [h2])]
      rcases hx : strCmp a.createdAt b.createdAt with _ | _ | _
      · rfl
      · exact absurd ((strCmp_eq_iff _ _).mp hx) h2
      · rfl
  · rw [if_pos (by simp [h1])]
    rcases hx : strCmp a.date b.date with _ | _ | _
    · rfl
    · exact absurd ((strCmp_eq_iff _ _).mp hx) h1
    · rfl

theorem strListCmp_notGt_total (as bs : List String) :
    strListCmp as bs ≠ .gt ∨ strListCmp bs as ≠ .gt := by
  rcases h : strListCmp as bs with _ | _ | _
  · left; intro hx; cases hx
  · left; intro hx; cases hx
  · right
    rw [← strListCmp_swap as bs, h]
    intro hx; cases hx

theorem entryLe_eq_true_iff (a b : Entry) : entryLe a b = true ↔ entryCmp a b ≠ .gt := by
  unfold entryLe
  rcases h : entryCmp a b with _ | _ | _ <;> simp [h]

theorem entryLe_trans (a b c : Entry) (h₁ : entryLe a b = true) (h₂ : entryLe b c = true) :
    entryLe a c = true := by
  rw [entryLe_eq_true_iff] at *
  rw [entryCmp_eq_key] at *
  exact strListCmp_notGt_trans h₁ h₂

theorem entryLe_total (a b : Entry) : (entryLe a b || entryLe b a) = true := by
  rcases strListCmp_notGt_total [a.date, a.createdAt, a.updatedAt, a.id]
      [b.date, b.createdAt, b.updatedAt, b.id] with h | h
  · have : entryLe a b = true := by rw [entryLe_eq_true_iff, entryCmp_eq_key]; exact h
    simp [this]
  · have : entryLe b a = true := by rw [entryLe_eq_true_iff, entryCmp_eq_key]; exact h
    simp [this]

end JournalApp

namespace JournalApp

/-- Claim C1: the chronological ordering is a permutation of the active
journal's entries, sorted by the comparator; the comparator is exactly
ascending lexicographic comparison of `(date, createdAt, updatedAt, id)`
(each tiebreak consulted only when the preceding fields are equal); for
equal dates the earlier `createdAt` compares strictly first; and the
comparator is independent of `updatedAt` whenever `createdAt` differs,
so re-saving an entry never moves it relative to entries with a
different `createdAt`. -/
theorem getChronologicallySortedEntries_spec (entries : List Entry) (activeId : String) :
    (getChronologicallySortedEntries entries activeId).Perm
      (getEntriesForActiveNotebook entries activeId)
  ∧ (getChronologicallySortedEntries entries activeId).Pairwise
      (fun a b => entryLe a b = true)
  ∧ (∀ a b : Entry, entryCmp a b =
      strListCmp [a.date, a.createdAt, a.updatedAt, a.id]
        [b.date, b.createdAt, b.updatedAt, b.id])
  ∧ (∀ a b : Entry, a.date = b.date → strCmp a.createdAt b.createdAt = .lt →
      entryCmp a b = .lt)
  ∧ (∀ (a b : Entry) (u : String), a.createdAt ≠ b.createdAt →
      entryCmp { a with updatedAt := u } b = entryCmp a b
      ∧ entryCmp b { a with updatedAt := u } = entryCmp b a) := by
  refine ⟨sortLe_perm _ _, sortLe_pairwise entryLe entryLe_trans entryLe_total _,
    entryCmp_eq_key, ?_, ?_⟩
  · intro a b hdate hlt
    unfold entryCmp
    rw [if_neg (by simp [hdate]), if_pos (by
      simp only [strOr_empty_right]
      intro hx
      rw [hx, strCmp_self] at hlt
      cases hlt)]
    simpa using hlt
  · intro a b u hne
    constructor
    · unfold entryCmp
      simp only [strOr_empty_right]
      by_cases hdate : a.date = b.date
      · rw [if_neg (by simpa using hdate), if_pos (by simpa using hne),
          if_neg (by simpa using hdate), if_pos (by simpa using hne)]
      · rw [if_pos (by simpa using hdate), if_pos (by simpa using hdate)]
    · unfold entryCmp
      simp only [strOr_empty_right]
      by_cases hdate : b.date = a.date
      · rw [if_neg (by simpa using hdate), if_pos (by simpa using (Ne.symm hne)),
          if_neg (by simpa using hdate), if_pos (by simpa using (Ne.symm hne))]
      · rw [if_pos (by simpa using hdate), if_pos (by simpa using hdate)]

/-- Two entries sharing a date, created at different instants (the
scenario from the specification's test list). -/
def sampleEntryA : Entry :=
  ⟨"1", "default", "2025-01-01", "", "", "", [], [],
    "2025-01-01T10:00:00.000Z", "2025-01-01T10:00:00.000Z"⟩

def sampleEntryB : Entry :=
  ⟨"2", "default", "2025-01-01", "", "", "", [], [],
    "2025-01-01T09:00:00.000Z", "2025-01-01T09:00:00.000Z"⟩

/-- Witness for C1: on the sample pair, the earlier-created entry
compares strictly first despite its larger id, and bumping only
`updatedAt` leaves both comparator results unchanged. -/
theorem getChronologicallySortedEntries_spec_witness :
    entryCmp sampleEntryB sampleEntryA = .lt
  ∧ entryCmp { sampleEntryB with updatedAt := "2025-06-01T00:00:00.000Z" } sampleEntryA =
      entryCmp sampleEntryB sampleEntryA
  ∧ entryCmp sampleEntryA { sampleEntryB with updatedAt := "2025-06-01T00:00:00.000Z" } =
      entryCmp sampleEntryA sampleEntryB := by
  have h := getChronologicallySortedEntries_spec [sampleEntryA, sampleEntryB] "default"
  have h4 := h.2.2.2.1 sampleEntryB sampleEntryA rfl (by decide)
  have h5 := h.2.2.2.2 sampleEntryB sampleEntryA "2025-06-01T00:00:00.000Z" (by decide)
  exact ⟨h4, h5.1, h5.2⟩

end JournalApp

namespace JournalApp

/-! ## Application state and journal operations -/

/-- The `{date, title, body}` snapshot used by the dirty tracker. -/
structure EntrySnapshot where
  date : String
  title : String
  body : String
deriving DecidableEq

/-- The module-level mutable state of `app.js` that the claims touch.
`currentEntryId`, `calendarSelectedIso` and `currentDayIso` use `""`
for JS `null`. -/
structure AppState where
  entries : List Entry
  notebooks : List Notebook
  activeNotebookId : String
  currentEntryId : String
  currentTags : List Tag
  currentSnapshot : Option EntrySnapshot
  isEditorDirty : Bool
  isNonTextDirty : Bool
  calendarSelectedIso : String
  currentDayIso : String
  currentDayEntries : List Entry
deriving DecidableEq

/-- `normalizeNotebookName` from `app.js`. -/
def normalizeNotebookName (name : String) : String :=
  jsLower (collapseWs (jsTrim name))

/-- `setActiveNotebookId` from `app.js` (the persistence call is a no-op
in the model). -/
def setActiveNotebookId (s : AppState) (nextId : String) : AppState :=
  { s with activeNotebookId :=
      if s.notebooks.any (fun n => n.id == nextId) then nextId
      else match s.notebooks.head? with
        | some n => n.id
        | none => "default" }

/-- `showEmptyNotebookState` from `app.js` (state effects only). -/
def showEmptyNotebookState (s : AppState) : AppState :=
  { s with currentEntryId := "", currentDayIso := "", currentDayEntries := [] }

/-- The `save()` handler of the add-journal flow: validate the entered
name, shape a notebook and prepend it, then activate it.  Validation
failures leave the state untouched (the UI re-prompts). -/
def addNotebook (s : AppState) (inputValue gid now : String) : AppState :=
  let name := collapseWs (jsTrim inputValue)
  let norm := normalizeNotebookName name
  if norm = "" then s
  else if s.notebooks.any (fun n => normalizeNotebookName n.name == norm) then s
  else
    let nb := ensureNotebookShape gid now ⟨none, some name, some now, some now⟩
    setActiveNotebookId { s with notebooks := nb :: s.notebooks } nb.id

/-- `requestDeleteNotebook` from `app.js`, with the confirmation dialog
answered "yes" (`performDelete` runs).  A missing target id is a no-op. -/
def requestDeleteNotebook (s : AppState) (nid now gid : String) : AppState :=
  if ¬ s.notebooks.any (fun n => n.id == nid) then s
  else
    let s₁ := { s with
      entries := s.entries.filter (fun e => ¬ (entryNbId e == nid))
      notebooks := s.notebooks.filter (fun n => ¬ (n.id == nid)) }
    let s₂ := if s₁.notebooks.isEmpty
      then { s₁ with notebooks := migrateNotebooks now gid [] } else s₁
    let s₃ := if s₂.activeNotebookId == nid
      then setActiveNotebookId s₂
        (match s₂.notebooks.head? with | some n => n.id | none => "default")
      else s₂
    let sorted := getChronologicallySortedEntries s₃.entries s₃.activeNotebookId
    if sorted.isEmpty then showEmptyNotebookState s₃
    else match sorted.getLast? with
      | some m => { s₃ with
          currentEntryId := m.id
          calendarSelectedIso := strOr m.date "" }
      | none => s₃

/-- One create-journal or delete-journal interaction. -/
inductive JournalOp where
  | create (inputValue gid now : String)
  | delete (nid now gid : String)

def applyJournalOp (s : AppState) : JournalOp → AppState
  | .create iv gid now => addNotebook s iv gid now
  | .delete nid now gid => requestDeleteNotebook s nid now gid

def applyJournalOps (ops : List JournalOp) (s : AppState) : AppState :=
  ops.foldl applyJournalOp s

theorem one_le_length_of_not_isEmpty {α : Type} (l : List α) (h : l.isEmpty = false) :
    1 ≤ l.length := by
  cases l with
  | nil => cases h
  | cons x xs => simp

theorem addNotebook_notebooks_len (s : AppState) (iv gid now : String)
    (h : 1 ≤ s.notebooks.length) : 1 ≤ (addNotebook s iv gid now).notebooks.length := by
  simp only [addNotebook]
  split
  · exact h
  · split
    · exact h
    · simp [setActiveNotebookId]

theorem migrateNotebooks_nil (now gid : String) :
    migrateNotebooks now gid [] = [⟨"default", "Journal", now, now⟩] := by
  simp [migrateNotebooks]

theorem requestDeleteNotebook_notebooks_len (s : AppState) (nid now gid : String)
    (h : 1 ≤ s.notebooks.length) :
    1 ≤ (requestDeleteNotebook s nid now gid).notebooks.length := by
  simp only [requestDeleteNotebook]
  split
  · exact h
  · repeat' split
    all_goals
      simp_all [setActiveNotebookId, showEmptyNotebookState, migrateNotebooks_nil]
    all_goals
      obtain ⟨x, hx, hxne⟩ := ‹∃ x ∈ s.notebooks, ¬ x.id = nid›
      first
      | exact hxne (‹∀ x ∈ s.notebooks, x.id = nid› x hx)
      | exact List.length_pos.mpr (List.ne_nil_of_mem
          (List.mem_filter.mpr ⟨hx, by simp [hxne]⟩))

end JournalApp

namespace JournalApp

theorem requestDeleteNotebook_entries (s : AppState) (nid now gid : String)
    (h : s.notebooks.any (fun n => n.id == nid) = true) :
    (requestDeleteNotebook s nid now gid).entries =
      s.entries.filter (fun e => ¬ (entryNbId e == nid)) := by
  simp only [requestDeleteNotebook]
  rw [if_neg (by simp [h])]
  repeat' split
  all_goals
    simp_all [setActiveNotebookId, showEmptyNotebookState]

/-- Claim C3: deleting a journal cascades — afterwards no entry belongs
to it, where an entry with a falsy `notebookId` counts as belonging to
the `"default"` journal.  The hypothesis says the journal existed, so
the deletion actually ran instead of being a not-found no-op. -/
theorem deleteJournal_cascade (s : AppState) (nid now gid : String)
    (h : s.notebooks.any (fun n => n.id == nid) = true) :
    ∀ e ∈ (requestDeleteNotebook s nid now gid).entries, entryNbId e ≠ nid := by
  intro e he
  rw [requestDeleteNotebook_entries s nid now gid h] at he
  have := (List.mem_filter.mp he).2
  simpa using this

theorem requestDeleteNotebook_notebooks_all_deleted (t : AppState) (nid now gid : String)
    (hany : t.notebooks.any (fun n => n.id == nid) = true)
    (hfil : t.notebooks.filter (fun n => ¬ (n.id == nid)) = []) :
    (requestDeleteNotebook t nid now gid).notebooks = [⟨"default", "Journal", now, now⟩] := by
  simp only [requestDeleteNotebook]
  rw [if_neg (by simp [hany])]
  repeat' split
  all_goals
    simp_all [setActiveNotebookId, showEmptyNotebookState, migrateNotebooks_nil]

/-- Claim C2: after any sequence of create-journal / delete-journal
operations on a state with at least one journal, at least one journal
remains; and deleting the last remaining journal synthesizes a fresh
default journal before the operation completes. -/
theorem journals_never_empty (ops : List JournalOp) (s : AppState)
    (h : 1 ≤ s.notebooks.length) :
    1 ≤ (applyJournalOps ops s).notebooks.length
  ∧ ∀ (t : AppState) (nid now gid : String),
      t.notebooks.any (fun n => n.id == nid) = true →
      t.notebooks.filter (fun n => ¬ (n.id == nid)) = [] →
      (requestDeleteNotebook t nid now gid).notebooks =
        [⟨"default", "Journal", now, now⟩] := by
  constructor
  · induction ops generalizing s with
    | nil => exact h
    | cons op rest ih =>
      show 1 ≤ (applyJournalOps rest (applyJournalOp s op)).notebooks.length
      apply ih
      cases op with
      | create iv gid now => exact addNotebook_notebooks_len s iv gid now h
      | delete nid now gid => exact requestDeleteNotebook_notebooks_len s nid now gid h
  · exact fun t nid now gid => requestDeleteNotebook_notebooks_all_deleted t nid now gid

def nbDefault : Notebook := ⟨"default", "Journal", "T0", "T0"⟩

def stateOneJournal : AppState :=
  ⟨[], [nbDefault], "default", "", [], none, false, false, "", "", []⟩

/-- Witness for C2: a create followed by two deletes on a one-journal
state leaves at least one journal, and deleting the only journal yields
the synthesized default. -/
theorem journals_never_empty_witness :
    1 ≤ (applyJournalOps
        [.create "Work" "id-w" "T1", .delete "default" "T2" "g1", .delete "id-w" "T3" "g2"]
        stateOneJournal).notebooks.length
  ∧ (requestDeleteNotebook stateOneJournal "default" "T9" "g9").notebooks =
      [⟨"default", "Journal", "T9", "T9"⟩] := by
  have h := journals_never_empty
    [.create "Work" "id-w" "T1", .delete "default" "T2" "g1", .delete "id-w" "T3" "g2"]
    stateOneJournal (by decide)
  exact ⟨h.1, h.2 stateOneJournal "default" "T9" "g9" (by decide) (by decide)⟩

def nbWork : Notebook := ⟨"work", "Work", "T0", "T0"⟩

def entryInDefault : Entry :=
  ⟨"e1", "default", "2025-01-01", "", "", "", [], [], "T1", "T1"⟩

def entryInWork : Entry :=
  ⟨"e2", "work", "2025-01-02", "", "", "", [], [], "T2", "T2"⟩

def stateTwoJournals : AppState :=
  ⟨[entryInDefault, entryInWork], [nbDefault, nbWork], "default", "", [], none,
    false, false, "", "", []⟩

/-- Witness for C3: after deleting the `"work"` journal, the surviving
entry (picked from the resulting collection) does not belong to it. -/
theorem deleteJournal_cascade_witness :
    entryNbId entryInDefault ≠ "work"
  ∧ (requestDeleteNotebook stateTwoJournals "work" "T3" "g3").entries = [entryInDefault] := by
  refine ⟨?_, by decide⟩
  apply deleteJournal_cascade stateTwoJournals "work" "T3" "g3" (by decide)
  decide

end JournalApp

namespace JournalApp

/-! ## Editor: current entry, create, save, dirty tracking -/

/-- The live values of the three staged editor inputs. -/
structure EditorValues where
  date : String
  title : String
  body : String
deriving DecidableEq

/-- `getCurrentEntryObject` from `app.js`. -/
def getCurrentEntryObject (s : AppState) : Option Entry :=
  if s.currentEntryId = "" then none
  else s.entries.find? (fun e => e.id == s.currentEntryId)

/-- In-place mutation of the entry found by `entries.find` — only the
first entry with the id is modified. -/
def replaceFirstById (l : List Entry) (eid : String) (f : Entry → Entry) : List Entry :=
  match l with
  | [] => []
  | e :: rest => if e.id == eid then f e :: rest else e :: replaceFirstById rest eid f

/-- The field mutations `saveCurrentEntry` applies to the found entry:
an empty date input keeps the stored date (`dateInput.value || entry.date`),
while title/body store the input as-is (`input.value || ""`). -/
def savedEntryUpdate (vals : EditorValues) (tags : List Tag) (now : String)
    (e : Entry) : Entry :=
  { e with
    date := strOr vals.date e.date
    title := strOr vals.title ""
    body := strOr vals.body ""
    tags := tags
    updatedAt := now }

/-- `saveCurrentEntry` from `app.js` (state effects; rendering and
persistence calls dropped).  `searchVisible` is `isSearchVisible()`. -/
def saveCurrentEntry (s : AppState) (vals : EditorValues) (now : String)
    (searchVisible : Bool) : AppState :=
  match getCurrentEntryObject s with
  | none => s
  | some e =>
    let e₁ := savedEntryUpdate vals s.currentTags now e
    let s₁ := { s with
      entries := replaceFirstById s.entries s.currentEntryId
        (savedEntryUpdate vals s.currentTags now)
      calendarSelectedIso := if e₁.date ≠ "" then e₁.date else s.calendarSelectedIso
      currentSnapshot := some ⟨strOr e₁.date "", strOr e₁.title "", strOr e₁.body ""⟩
      isEditorDirty := false
      isNonTextDirty := false }
    if searchVisible then s₁
    else
      let sorted := getChronologicallySortedEntries s₁.entries s₁.activeNotebookId
      if e₁.date ≠ "" then
        let sameDay := sorted.filter (fun x => x.date == e₁.date)
        if 1 < sameDay.length then
          { s₁ with currentDayIso := e₁.date, currentDayEntries := sameDay }
        else { s₁ with currentDayIso := "", currentDayEntries := [] }
      else { s₁ with currentDayIso := "", currentDayEntries := [] }

/-- `newEntry` from `app.js`: shape a fresh entry for the active journal
dated today, append it, select it, snapshot it, and mark the editor
dirty. -/
def newEntry (s : AppState) (gid now today : String) : AppState :=
  let fresh := ensureEntryShape gid now today
    ⟨none, some s.activeNotebookId, some today, some "", some "", none, some [], none,
      none, none⟩
  { s with
    entries := s.entries ++ [fresh]
    currentEntryId := fresh.id
    calendarSelectedIso := fresh.date
    currentSnapshot := some ⟨strOr fresh.date "", strOr fresh.title "", strOr fresh.body ""⟩
    isNonTextDirty := false
    isEditorDirty := true
    currentDayIso := ""
    currentDayEntries := [] }

/-- `recomputeEditorDirty` from `app.js`: with no current entry the text
flag clears; with no snapshot a brand-new entry counts as dirty;
otherwise compare the three live values against the snapshot. -/
def recomputeEditorDirty (s : AppState) (vals : EditorValues) : AppState :=
  match getCurrentEntryObject s with
  | none => { s with isEditorDirty := false }
  | some _ =>
    match s.currentSnapshot with
    | none => { s with isEditorDirty := true }
    | some sn =>
      { s with isEditorDirty :=
          (vals.date != strOr sn.date "") || (vals.title != strOr sn.title "") ||
            (vals.body != strOr sn.body "") }

/-- `syncSaveButtonState`'s notion of dirty: text-dirty OR photo/tag-dirty. -/
def dirtyReported (s : AppState) : Bool := s.isEditorDirty || s.isNonTextDirty

theorem find_replaceFirstById (l : List Entry) (cid : String) (f : Entry → Entry)
    (hf : ∀ e, (f e).id = e.id) (e : Entry)
    (he : l.find? (fun x => x.id == cid) = some e) :
    (replaceFirstById l cid f).find? (fun x => x.id == cid) = some (f e) := by
  induction l with
  | nil => cases he
  | cons x xs ih =>
    rw [List.find?_cons] at he
    simp only [replaceFirstById]
    rcases hx : (x.id == cid) with _ | _
    · rw [hx] at he
      simp only [] at he
      rw [if_neg (by simp_all), List.find?_cons, hx]
      exact ih he
    · rw [hx] at he
      simp only [] at he
      rw [if_pos (by simp_all), List.find?_cons]
      have : ((f x).id == cid) = true := by rw [hf x]; exact hx
      rw [this]
      injection he with hxe
      rw [hxe]

end JournalApp

namespace JournalApp

theorem getCurrentEntryObject_save (s : AppState) (vals : EditorValues) (now : String)
    (sv : Bool) (e : Entry) (he : getCurrentEntryObject s = some e) :
    getCurrentEntryObject (saveCurrentEntry s vals now sv) =
      some (savedEntryUpdate vals s.currentTags now e) := by
  have hcid : ¬ s.currentEntryId = "" := by
    intro h0
    unfold getCurrentEntryObject at he
    rw [if_pos h0] at he
    cases he
  have hfind : s.entries.find? (fun x => x.id == s.currentEntryId) = some e := by
    unfold getCurrentEntryObject at he
    rw [if_neg hcid] at he
    exact he
  have hmain : ∀ t : AppState, t.currentEntryId = s.currentEntryId →
      t.entries = replaceFirstById s.entries s.currentEntryId
        (savedEntryUpdate vals s.currentTags now) →
      getCurrentEntryObject t = some (savedEntryUpdate vals s.currentTags now e) := by
    intro t h1 h2
    unfold getCurrentEntryObject
    rw [h1, h2, if_neg hcid,
      find_replaceFirstById s.entries s.currentEntryId
        (savedEntryUpdate vals s.currentTags now) (fun _ => rfl) e hfind]
  simp only [saveCurrentEntry, he]
  repeat' split
  all_goals apply hmain <;> simp

theorem saveCurrentEntry_flags (s : AppState) (vals : EditorValues) (now : String)
    (sv : Bool) (e : Entry) (he : getCurrentEntryObject s = some e) :
    (saveCurrentEntry s vals now sv).isEditorDirty = false
  ∧ (saveCurrentEntry s vals now sv).isNonTextDirty = false
  ∧ (saveCurrentEntry s vals now sv).currentSnapshot =
      some ⟨(savedEntryUpdate vals s.currentTags now e).date,
        (savedEntryUpdate vals s.currentTags now e).title,
        (savedEntryUpdate vals s.currentTags now e).body⟩ := by
  simp only [saveCurrentEntry, he]
  repeat' split
  all_goals simp

/-- Claim C10: at the save boundary an empty date input leaves the
stored date unchanged while empty title/body inputs are stored as empty
strings; the saved entry (looked up again from the state) carries
exactly these values plus the staged tags and the fresh `updatedAt`. -/
theorem saveCurrentEntry_spec (s : AppState) (vals : EditorValues) (now : String)
    (sv : Bool) (e : Entry) (he : getCurrentEntryObject s = some e) :
    getCurrentEntryObject (saveCurrentEntry s vals now sv) =
      some (savedEntryUpdate vals s.currentTags now e)
  ∧ (vals.date = "" → (savedEntryUpdate vals s.currentTags now e).date = e.date)
  ∧ (vals.date ≠ "" → (savedEntryUpdate vals s.currentTags now e).date = vals.date)
  ∧ (savedEntryUpdate vals s.currentTags now e).title = vals.title
  ∧ (savedEntryUpdate vals s.currentTags now e).body = vals.body
  ∧ (savedEntryUpdate vals s.currentTags now e).tags = s.currentTags
  ∧ (savedEntryUpdate vals s.currentTags now e).updatedAt = now := by
  refine ⟨getCurrentEntryObject_save s vals now sv e he, ?_, ?_, ?_, ?_, rfl, rfl⟩
  · intro h0
    simp [savedEntryUpdate, strOr, h0]
  · intro h0
    show strOr vals.date e.date = vals.date
    exact strOr_of_ne _ _ h0
  · simp [savedEntryUpdate]
  · simp [savedEntryUpdate]

def stateSel : AppState := { stateTwoJournals with currentEntryId := "e1" }

/-- Witness for C10: saving with a cleared date input and a new title
keeps the stored date `2025-01-01`, overwrites the title, and clears
the body. -/
theorem saveCurrentEntry_spec_witness :
    getCurrentEntryObject (saveCurrentEntry stateSel ⟨"", "New Title", ""⟩ "T5" false) =
      some ⟨"e1", "default", "2025-01-01", "New Title", "", "", [], [], "T1", "T5"⟩
  ∧ ("" : String) ≠ "2025-01-01" := by
  have h := saveCurrentEntry_spec stateSel ⟨"", "New Title", ""⟩ "T5" false entryInDefault
    (by decide)
  refine ⟨?_, by decide⟩
  rw [h.1]
  decide

/-- Claim C9: with a current entry and a snapshot present, the dirty
tracker reports dirty exactly when a live field differs from the
snapshot or the photo/tag flag is set; a save resets the snapshot to
the saved values and clears both flags, so recomputing right after a
save reports clean. -/
theorem dirty_tracking_spec :
    (∀ (s : AppState) (vals : EditorValues) (e : Entry) (sn : EntrySnapshot),
        getCurrentEntryObject s = some e → s.currentSnapshot = some sn →
        dirtyReported (recomputeEditorDirty s vals) =
          ((vals.date != sn.date) || (vals.title != sn.title) || (vals.body != sn.body) ||
            s.isNonTextDirty))
  ∧ (∀ (s : AppState) (vals : EditorValues) (now : String) (sv : Bool) (e : Entry),
        getCurrentEntryObject s = some e →
        (saveCurrentEntry s vals now sv).isEditorDirty = false
        ∧ (saveCurrentEntry s vals now sv).isNonTextDirty = false
        ∧ (saveCurrentEntry s vals now sv).currentSnapshot =
            some ⟨(savedEntryUpdate vals s.currentTags now e).date,
              (savedEntryUpdate vals s.currentTags now e).title,
              (savedEntryUpdate vals s.currentTags now e).body⟩
        ∧ dirtyReported (recomputeEditorDirty (saveCurrentEntry s vals now sv)
            ⟨(savedEntryUpdate vals s.currentTags now e).date,
              (savedEntryUpdate vals s.currentTags now e).title,
              (savedEntryUpdate vals s.currentTags now e).body⟩) = false) := by
  constructor
  · intro s vals e sn he hsn
    simp only [recomputeEditorDirty, he, hsn, dirtyReported, strOr_empty_right]
  · intro s vals now sv e he
    obtain ⟨h1, h2, h3⟩ := saveCurrentEntry_flags s vals now sv e he
    refine ⟨h1, h2, h3, ?_⟩
    have hcur := getCurrentEntryObject_save s vals now sv e he
    simp only [recomputeEditorDirty, hcur, h3, dirtyReported, strOr_empty_right]
    simp [h1, h2]

/-- Witness for C9: on a concrete selected state, editing only the title
reports dirty, and saving then recomputing reports clean. -/
theorem dirty_tracking_spec_witness :
    dirtyReported (recomputeEditorDirty
        { stateSel with currentSnapshot := some ⟨"2025-01-01", "", ""⟩ }
        ⟨"2025-01-01", "draft", ""⟩) = true
  ∧ dirtyReported (recomputeEditorDirty
        (saveCurrentEntry stateSel ⟨"2025-01-01", "draft", ""⟩ "T6" true)
        ⟨"2025-01-01", "draft", ""⟩) = false := by
  have h1 := dirty_tracking_spec.1
    { stateSel with currentSnapshot := some ⟨"2025-01-01", "", ""⟩ }
    ⟨"2025-01-01", "draft", ""⟩ entryInDefault ⟨"2025-01-01", "", ""⟩ (by decide) rfl
  have h2 := (dirty_tracking_spec.2 stateSel ⟨"2025-01-01", "draft", ""⟩ "T6" true
    entryInDefault (by decide)).2.2.2
  refine ⟨by rw [h1]; decide, ?_⟩
  have : (⟨"2025-01-01", "draft", ""⟩ : EditorValues) =
      ⟨(savedEntryUpdate ⟨"2025-01-01", "draft", ""⟩ stateSel.currentTags "T6"
          entryInDefault).date,
        (savedEntryUpdate ⟨"2025-01-01", "draft", ""⟩ stateSel.currentTags "T6"
          entryInDefault).title,
        (savedEntryUpdate ⟨"2025-01-01", "draft", ""⟩ stateSel.currentTags "T6"
          entryInDefault).body⟩ := by decide
  rw [this]
  exact h2

end JournalApp

namespace JournalApp

/-- The raw record `newEntry` hands to `ensureEntryShape`. -/
def newEntryRaw (s : AppState) (today : String) : RawEntry :=
  ⟨none, some s.activeNotebookId, some today, some "", some "", none, some [], none,
    none, none⟩

/-- Claim C8 (amended): `newEntry` appends a fresh entry dated today in
the active journal — and it DOES implicitly select it: the current-entry
selection becomes the new entry's id. -/
theorem newEntry_spec (s : AppState) (gid now today : String) :
    (newEntry s gid now today).entries =
      s.entries ++ [ensureEntryShape gid now today (newEntryRaw s today)]
  ∧ (ensureEntryShape gid now today (newEntryRaw s today)).id = gid
  ∧ (ensureEntryShape gid now today (newEntryRaw s today)).date = today
  ∧ (ensureEntryShape gid now today (newEntryRaw s today)).notebookId =
      strOr s.activeNotebookId "default"
  ∧ (newEntry s gid now today).currentEntryId = gid
  ∧ (newEntry s gid now today).isEditorDirty = true
  ∧ (newEntry s gid now today).isNonTextDirty = false := by
  refine ⟨rfl, rfl, ?_, rfl, rfl, rfl, rfl⟩
  show jsOr (some today) today = today
  by_cases h : today = "" <;> simp [jsOr, h]

/-- Counterexample for C8 as stated: creating an entry changes
`currentEntryId` — the previously selected `"e1"` is replaced by the
fresh entry's id, so creation does implicitly select the new entry. -/
theorem newEntry_counterexample :
    (newEntry stateSel "fresh-id" "T4" "2025-02-01").currentEntryId ≠
      stateSel.currentEntryId
  ∧ stateSel.currentEntryId = "e1"
  ∧ (newEntry stateSel "fresh-id" "T4" "2025-02-01").currentEntryId = "fresh-id" := by
  decide

end JournalApp

namespace JournalApp

/-! ## Search: tag normalization and the tag index -/

/-- `normalizeTagText` from `app.js`: trim, collapse whitespace,
case-fold. -/
def normalizeTagText (raw : String) : String := jsLower (collapseWs (jsTrim raw))

/-- The display form a tag occurrence contributes:
`rawText.toString().trim().replace(/\s+/g, " ")`. -/
def tagDisplayOf (raw : String) : String := collapseWs (jsTrim raw)

/-- One record of the tag index:
`{ norm, display, countEntries, countOccurrences, color }`. -/
structure TagRec where
  norm : String
  display : String
  countEntries : Nat
  countOccurrences : Nat
  color : String
deriving DecidableEq

/-- The per-occurrence update of an existing record in
`buildTagIndexFromEntries`: adopt a nicer display, adopt a color,
count the occurrence, and count the entry once per normalized tag. -/
def updateRec (display color : String) (alreadySeen : Bool) (r : TagRec) : TagRec :=
  { r with
    display := if display ≠ "" ∧ (r.display = "" ∨ r.display = r.norm)
      then display else r.display
    color := if r.color = "" ∧ color ≠ "" then color else r.color
    countOccurrences := r.countOccurrences + 1
    countEntries := if alreadySeen then r.countEntries else r.countEntries + 1 }

/-- Processing one tag of one entry: the state is the record list (the
insertion-ordered `Map`) plus the entry-local `seenInThisEntry` set. -/
def stepTag (st : List TagRec × List String) (t : Tag) : List TagRec × List String :=
  let acc := st.1
  let seen := st.2
  let norm := normalizeTagText t.text
  if norm = "" then (acc, seen)
  else
    let display := tagDisplayOf t.text
    let acc₁ := if acc.any (fun r => r.norm == norm) then acc
      else acc ++ [⟨norm, strOr display norm, 0, 0, t.color⟩]
    let seenB := seen.contains norm
    let acc₂ := acc₁.map (fun r => if r.norm == norm
      then updateRec display t.color seenB r else r)
    (acc₂, if seenB then seen else norm :: seen)

/-- Processing one entry: fold its tags with a fresh `seenInThisEntry`. -/
def stepEntry (acc : List TagRec) (e : Entry) : List TagRec :=
  (e.tags.foldl stepTag (acc, [])).1

/-- The unsorted tag index (the `Map` contents in insertion order). -/
def buildTagCore (es : List Entry) : List TagRec := es.foldl stepEntry []

/-- The comparator of `buildTagIndexFromEntries`: `countEntries`
descending, then display text ascending. -/
def tagRecLe (a b : TagRec) : Bool :=
  if a.countEntries ≠ b.countEntries then decide (b.countEntries ≤ a.countEntries)
  else
    match strCmp (strOr a.display a.norm) (strOr b.display b.norm) with
    | .gt => false
    | _ => true

/-- `buildTagIndexFromEntries` from `app.js`. -/
def buildTagIndexFromEntries (es : List Entry) : List TagRec :=
  sortLe tagRecLe (buildTagCore es)

/-! ## Search: scope parsing (`parseSearchScope`) -/

/-- JS `\w` — the word character class used by `\b`. -/
def isWordChar (c : Char) : Bool := c.isAlpha || c.isDigit || c = '_'

/-- Case-insensitive prefix test; `pat` is given lower-case. -/
def startsWithCI : List Char → List Char → Bool
  | [], _ => true
  | _ :: _, [] => false
  | p :: ps, c :: cs => p == lowerChar c && startsWithCI ps cs

/-- One alternative `"([^"]+)"` / `'([^']+)'` of the journal regex,
tried right after `journal:`; returns the capture and the matched
length. -/
def journalAltQuoted (q : Char) (rest : List Char) : Option (List Char × Nat) :=
  match rest with
  | [] => none
  | c :: r =>
    if c = q then
      let inner := r.takeWhile (fun d => ¬ (d == q))
      if inner.isEmpty then none
      else
        match (r.drop inner.length).head? with
        | some d => if d = q then some (inner, 8 + 2 + inner.length) else none
        | none => none
    else none

/-- Attempt to match `journal:(?:"([^"]+)"|'([^']+)'|([^\s]+))`
(case-insensitive) at the start of `cs`. -/
def journalMatchAt (cs : List Char) : Option (List Char × Nat) :=
  if startsWithCI "journal:".data cs then
    let rest := cs.drop 8
    match journalAltQuoted '"' rest with
    | some r => some r
    | none =>
      match journalAltQuoted '\'' rest with
      | some r => some r
      | none =>
        let tok := rest.takeWhile (fun d => ¬ isJsWs d)
        if tok.isEmpty then none else some (tok, 8 + tok.length)
  else none

/-- Scan for the first match of the journal regex; `prevW` tracks the
word-boundary condition `\b` (the pattern starts with a word char, so
`\b` holds exactly when the previous char is not a word char).  Returns
(text before the match, captured name, text after the match). -/
def scanJournal : Bool → List Char → List Char → Option (List Char × List Char × List Char)
  | _, _, [] => none
  | prevW, before, c :: rest =>
    (if ¬ prevW then
      match journalMatchAt (c :: rest) with
      | some (nm, len) => some (before, nm, (c :: rest).drop len)
      | none => none
    else none).orElse (fun _ => scanJournal (isWordChar c) (before ++ [c]) rest)

/-- Scan for the first match of `\bscope:all\b` (case-insensitive).
Returns (text before, text after). -/
def scanScopeAll : Bool → List Char → List Char → Option (List Char × List Char)
  | _, _, [] => none
  | prevW, before, c :: rest =>
    (if ¬ prevW && startsWithCI "scope:all".data (c :: rest)
        && (match ((c :: rest).drop 9).head? with
            | none => true
            | some d => ¬ isWordChar d) then
      some (before, (c :: rest).drop 9)
    else none).orElse (fun _ => scanScopeAll (isWordChar c) (before ++ [c]) rest)

/-- The typed result of `parseSearchScope`:
`scope ∈ {"active", "journal", "all"}`, `notebookId`/`notebookName`
use `""` for JS `null`/absent. -/
structure ScopeSpec where
  scope : String
  notebookId : String
  notebookName : String
  cleanedQuery : String
deriving DecidableEq

/-- `getNotebookIdByName` from `app.js`. -/
def getNotebookIdByName (nbs : List Notebook) (name : String) : String :=
  let norm := normalizeNotebookName name
  if norm = "" then ""
  else
    match nbs.find? (fun n => normalizeNotebookName n.name == norm) with
    | some n => n.id
    | none => ""

/-- `parseSearchScope` from `app.js`: strip a `journal:<name>` qualifier
(quoted or unquoted), then a `scope:all` token, then a leading `all:`
prefix; `journal:` (with a truthy trimmed name) wins over both `all`
forms, which win over the default active scope. -/
def parseSearchScope (nbs : List Notebook) (rawQuery : String) : ScopeSpec :=
  let raw := jsTrim rawQuery
  if raw = "" then ⟨"active", "", "", ""⟩
  else
    let step₁ := match scanJournal false [] raw.data with
      | some (bef, nm, aft) => (jsTrim ⟨nm⟩, jsTrim ⟨bef ++ ' ' :: aft⟩)
      | none => ("", raw)
    let notebookName := step₁.1
    let q₁ := step₁.2
    let step₂ := match scanScopeAll false [] q₁.data with
      | some (bef, aft) => (true, jsTrim ⟨bef ++ ' ' :: aft⟩)
      | none => (false, q₁)
    let hasScopeAll := step₂.1
    let q₂ := step₂.2
    let step₃ := if startsWithCI "all:".data q₂.data
      then (true, jsTrim ⟨q₂.data.drop 4⟩) else (false, q₂)
    let hasAllPre := step₃.1
    let q₃ := step₃.2
    if notebookName ≠ "" then
      ⟨"journal", getNotebookIdByName nbs notebookName, notebookName, q₃⟩
    else if hasScopeAll || hasAllPre then ⟨"all", "", "", q₃⟩
    else ⟨"active", "", "", q₃⟩

end JournalApp

namespace JournalApp

/-! ## Search: mode routing and execution (`runSearch`) -/

/-- The result of `parseTagQuery`: free-text mode or tag-browse with a
fragment. -/
inductive TagQuery where
  | entriesMode
  | tagBrowse (fragment : String)
deriving DecidableEq

/-- `raw.split(":").slice(1).join(":")` — everything after the first
colon. -/
def afterFirstColon (l : List Char) : List Char :=
  (l.dropWhile (fun c => ¬ (c == ':'))).drop 1

/-- `parseTagQuery` from `app.js`: `tag:` / `tags:` / `#` aliases, each
bare form or `tag:*` browsing all tags, with any other fragment kept. -/
def parseTagQuery (q : String) : TagQuery :=
  let raw := jsTrim q
  if raw = "" then .entriesMode
  else
    let lower := jsLower raw
    if lower = "tag:" ∨ lower = "tags:" ∨ lower = "#" then .tagBrowse ""
    else if lower = "tag:*" ∨ lower = "tags:*" then .tagBrowse ""
    else if startsWithCI "tag:".data lower.data || startsWithCI "tags:".data lower.data then
      .tagBrowse (jsTrim ⟨afterFirstColon raw.data⟩)
    else
      match raw.data with
      | '#' :: rest => .tagBrowse (jsTrim ⟨rest⟩)
      | _ => .entriesMode

/-- `getNotebookNameById` from `app.js`. -/
def getNotebookNameById (nbs : List Notebook) (id : String) : String :=
  match nbs.find? (fun n => n.id == id) with
  | some n => strOr n.name "Journal"
  | none => "Journal"

/-- `getEntriesForScope` from `app.js`: active journal, a named journal
(empty for an unknown name), or everything. -/
def getEntriesForScope (s : AppState) (sp : ScopeSpec) : List Entry :=
  if sp.scope = "active" then getEntriesForActiveNotebook s.entries s.activeNotebookId
  else if sp.scope = "journal" then
    if sp.notebookId = "" then []
    else s.entries.filter (fun e => entryNbId e == sp.notebookId)
  else s.entries

/-- Substring containment, the model of `String.includes`. -/
def occursIn (needle : List Char) : List Char → Bool
  | [] => needle.isEmpty
  | c :: rest => needle.isPrefixOf (c :: rest) || occursIn needle rest

def joinSpace : List (List Char) → List Char
  | [] => []
  | [x] => x
  | x :: xs => x ++ ' ' :: joinSpace xs

/-- `entryMatchesQuery` from `app.js`: case-insensitive substring match
against title, body and all tag texts joined by spaces. -/
def entryMatchesQuery (e : Entry) (qLower : String) : Bool :=
  let fields := jsLower ⟨joinSpace
    (([strOr e.title "", strOr e.body ""] ++
        e.tags.map (fun t => strOr t.text "")).map String.data)⟩
  occursIn qLower.data fields.data

/-- The recency comparator `(a, b) => b.updatedAt.localeCompare(a.updatedAt)`. -/
def recencyLe (a b : Entry) : Bool :=
  match strCmp (strOr b.updatedAt "") (strOr a.updatedAt "") with
  | .gt => false
  | _ => true

/-- The distinguishable outcomes `runSearch` hands to
`renderSearchResults`/`updateStatus`: the empty-query state, the
journal-not-found state, a tag-browse record list, or a recency-sorted
entry list. -/
inductive SearchOutcome where
  | emptyQuery (scopeLabel : String)
  | journalNotFound (scopeLabel : String)
  | tagBrowseResults (fragment : String) (tags : List TagRec)
  | entryResults (query : String) (items : List Entry)
deriving DecidableEq

/-- The scope label `runSearch` renders with the empty-query state. -/
def scopeLabelOf (s : AppState) (sp : ScopeSpec) : String :=
  if sp.scope = "all" then "All Journals"
  else if sp.scope = "journal" then
    if sp.notebookId ≠ "" then "Journal: " ++ getNotebookNameById s.notebooks sp.notebookId
    else "Journal: " ++ strOr sp.notebookName "Unknown"
  else "Journal: " ++ getNotebookNameById s.notebooks s.activeNotebookId

/-- `runTagBrowseInScope` from `app.js` (outcome only). -/
def runTagBrowseInScope (s : AppState) (fragment : String) (sp : ScopeSpec) : SearchOutcome :=
  let fragNorm := normalizeTagText fragment
  let tagIndex := buildTagIndexFromEntries (getEntriesForScope s sp)
  let filtered := if fragNorm = "" then tagIndex
    else tagIndex.filter (fun t =>
      occursIn fragNorm.data t.norm.data ||
        occursIn fragNorm.data (normalizeTagText t.display).data)
  .tagBrowseResults fragment filtered

/-- The free-text arm of `runSearch`: filter the scope pool by
case-insensitive substring match and sort by `updatedAt` descending. -/
def freeTextResults (s : AppState) (sp : ScopeSpec) : SearchOutcome :=
  .entryResults (jsTrim sp.cleanedQuery)
    (sortLe recencyLe ((getEntriesForScope s sp).filter
      (fun e => entryMatchesQuery e (jsLower (jsTrim sp.cleanedQuery)))))

/-- `runSearch` after scope parsing: tag-mode routing on the
scope-stripped remainder `sp.cleanedQuery` (re-trimmed, as in the JS);
an empty remainder renders the empty-query state (tag browse still
fires for a bare tag token); a `journal:` scope whose name resolved to
no notebook renders the not-found state; otherwise tag-browse or
free-text results. -/
def runSearchWithScope (s : AppState) (sp : ScopeSpec) : SearchOutcome :=
  if jsTrim sp.cleanedQuery = "" then
    match parseTagQuery (jsTrim sp.cleanedQuery) with
    | .tagBrowse frag => runTagBrowseInScope s frag sp
    | .entriesMode => .emptyQuery (scopeLabelOf s sp)
  else if sp.scope = "journal" ∧ sp.notebookId = "" then
    .journalNotFound ("Journal not found: " ++ strOr sp.notebookName "")
  else
    match parseTagQuery (jsTrim sp.cleanedQuery) with
    | .tagBrowse frag => runTagBrowseInScope s frag sp
    | .entriesMode => freeTextResults s sp

/-- `runSearch` from `app.js`. -/
def runSearch (s : AppState) (query : String) : SearchOutcome :=
  runSearchWithScope s (parseSearchScope s.notebooks (jsTrim query))

end JournalApp

namespace JournalApp

/-- Claim C5: scope precedence.  A `journal:<name>` qualifier (quoted or
unquoted, anywhere — i.e. whenever the journal regex matches, with a
truthy trimmed capture) forces scope `"journal"` with that name; with no
journal qualifier, a `scope:all` token or a leading `all:` yields scope
`"all"`; with neither, the default scope is the active journal.  In
particular `journal:"Work" scope:all` resolves to the named journal,
not to `all`. -/
theorem parseSearchScope_precedence (nbs : List Notebook) (q : String) :
    (∀ bef nm aft, scanJournal false [] (jsTrim q).data = some (bef, nm, aft) →
        jsTrim ⟨nm⟩ ≠ "" →
        (parseSearchScope nbs q).scope = "journal"
        ∧ (parseSearchScope nbs q).notebookName = jsTrim ⟨nm⟩
        ∧ (parseSearchScope nbs q).notebookId = getNotebookIdByName nbs (jsTrim ⟨nm⟩))
  ∧ (scanJournal false [] (jsTrim q).data = none →
      ((∃ bef aft, scanScopeAll false [] (jsTrim q).data = some (bef, aft)) ∨
        startsWithCI "all:".data (jsTrim q).data = true) →
      (parseSearchScope nbs q).scope = "all")
  ∧ (scanJournal false [] (jsTrim q).data = none →
      scanScopeAll false [] (jsTrim q).data = none →
      startsWithCI "all:".data (jsTrim q).data = false →
      (parseSearchScope nbs q).scope = "active")
  ∧ parseSearchScope nbs "journal:\x22Work\x22 scope:all" =
      ⟨"journal", getNotebookIdByName nbs "Work", "Work", ""⟩ := by
  refine ⟨?_, ?_, ?_, ?_⟩
  · intro bef nm aft hscan hnm
    have hraw : ¬ jsTrim q = "" := by
      intro h0
      rw [h0] at hscan
      exact Option.noConfusion hscan
    simp only [parseSearchScope, hscan]
    rw [if_neg hraw]
    rw [if_pos hnm]
    exact ⟨rfl, rfl, rfl⟩
  · intro hj hall
    rcases hall with ⟨bef, aft, hs⟩ | hpre
    · have hraw : ¬ jsTrim q = "" := by
        intro h0
        rw [h0] at hs
        exact Option.noConfusion hs
      simp only [parseSearchScope, hj, hs]
      rw [if_neg hraw]
      simp
    · have hraw : ¬ jsTrim q = "" := by
        intro h0
        rw [h0] at hpre
        exact Bool.noConfusion hpre
      rcases hss : scanScopeAll false [] (jsTrim q).data with _ | ⟨bef, aft⟩
      · simp only [parseSearchScope, hj, hss]
        rw [if_neg hraw]
        simp [hpre]
      · simp only [parseSearchScope, hj, hss]
        rw [if_neg hraw]
        simp
  · intro hj hs hpre
    by_cases hraw : jsTrim q = ""
    · simp [parseSearchScope, hraw]
    · simp only [parseSearchScope, hj, hs]
      rw [if_neg hraw]
      simp [hpre]
  · rfl

/-- Witness for C5 at a concrete notebook list and query. -/
theorem parseSearchScope_precedence_witness :
    (parseSearchScope [⟨"w1", "Work", "T", "T"⟩] "journal:Work scope:all").scope = "journal"
  ∧ (parseSearchScope [⟨"w1", "Work", "T", "T"⟩] "journal:Work scope:all").notebookName =
      "Work"
  ∧ (parseSearchScope [⟨"w1", "Work", "T", "T"⟩] "journal:Work scope:all").notebookId =
      "w1" := by
  have h := (parseSearchScope_precedence [⟨"w1", "Work", "T", "T"⟩]
      "journal:Work scope:all").1 [] "Work".data " scope:all".data (by decide) (by decide)
  refine ⟨h.1, ?_, ?_⟩
  · rw [h.2.1]
    decide
  · rw [h.2.2]
    decide

end JournalApp

namespace JournalApp

/-- Counterexample for C6 as stated: the query `journal:Nope` contains a
journal qualifier whose name matches no journal, yet `runSearch` renders
the empty-query state (the scope-stripped remainder is empty), not the
journal-not-found state. -/
theorem runSearch_unknownJournal_counterexample :
    runSearch stateOneJournal "journal:Nope" = .emptyQuery "Journal: Nope"
  ∧ runSearch stateOneJournal "journal:Nope" ≠ .journalNotFound "Journal not found: Nope"
  ∧ getNotebookIdByName stateOneJournal.notebooks "Nope" = "" := by
  decide

/-- Claim C6 (amended): an unknown `journal:<name>` qualifier resolves
to scope `"journal"` with a null (`""`) target, and `runSearch` reports
the distinguishable journal-not-found state whenever the scope-stripped
remainder is non-empty; when the remainder is empty it reports the
empty-query state instead (still labelled with the unknown journal, no
silent scope fallback).  A name matching no journal always yields a null
target. -/
theorem runSearch_journalNotFound (s : AppState) (q : String)
    (hscope : (parseSearchScope s.notebooks (jsTrim q)).scope = "journal")
    (hid : (parseSearchScope s.notebooks (jsTrim q)).notebookId = "") :
    (jsTrim (parseSearchScope s.notebooks (jsTrim q)).cleanedQuery ≠ "" →
      runSearch s q = .journalNotFound ("Journal not found: " ++
        strOr (parseSearchScope s.notebooks (jsTrim q)).notebookName ""))
  ∧ (jsTrim (parseSearchScope s.notebooks (jsTrim q)).cleanedQuery = "" →
      runSearch s q = .emptyQuery (scopeLabelOf s (parseSearchScope s.notebooks (jsTrim q))))
  ∧ (∀ nm, (∀ n ∈ s.notebooks, normalizeNotebookName n.name ≠ normalizeNotebookName nm) →
      getNotebookIdByName s.notebooks nm = "") := by
  have heq : runSearch s q = runSearchWithScope s (parseSearchScope s.notebooks (jsTrim q)) :=
    rfl
  refine ⟨?_, ?_, ?_⟩
  · intro hq
    rw [heq]
    unfold runSearchWithScope
    rw [if_neg hq, if_pos ⟨hscope, hid⟩]
  · intro hq
    rw [heq]
    unfold runSearchWithScope
    rw [if_pos hq, hq]
    rfl
  · intro nm hnone
    by_cases hn : normalizeNotebookName nm = ""
    · simp [getNotebookIdByName, hn]
    · have hfind : s.notebooks.find?
          (fun n => normalizeNotebookName n.name == normalizeNotebookName nm) = none := by
        rw [List.find?_eq_none]
        intro x hx
        simpa using hnone x hx
      simp [getNotebookIdByName, hn, hfind]

/-- Witness for C6: `journal:Nope hello` on a state whose only journal
is the default one reports the journal-not-found state. -/
theorem runSearch_journalNotFound_witness :
    runSearch stateOneJournal "journal:Nope hello" =
      .journalNotFound "Journal not found: Nope" := by
  have h := (runSearch_journalNotFound stateOneJournal "journal:Nope hello"
    (by decide) (by decide)).1 (by decide)
  rw [h]
  decide

end JournalApp

namespace JournalApp

/-! ## Tag-index characterization (toward claim C7) -/

/-- The occurrences of a normalized tag within one entry. -/
def tagOccsOfEntry (norm : String) (e : Entry) : List Tag :=
  e.tags.filter (fun t => normalizeTagText t.text == norm)

/-- All occurrences of a normalized tag across an entry list, in
traversal order. -/
def specOccs (norm : String) (es : List Entry) : List Tag :=
  es.flatMap (tagOccsOfEntry norm)

/-- The number of entries containing the normalized tag at least once. -/
def specEntryCount (norm : String) (es : List Entry) : Nat :=
  es.countP (fun e => !(tagOccsOfEntry norm e).isEmpty)

def displaysOf (ts : List Tag) : List String := ts.map (fun t => tagDisplayOf t.text)

def colorsOf (ts : List Tag) : List String := ts.map (fun t => t.color)

/-- The display the index ends up with: the first occurrence whose
collapsed casing differs from the all-lowercase normalized form, else
the normalized form itself. -/
def specDisplay (norm : String) (ts : List Tag) : String :=
  ((displaysOf ts).filter (fun d => ¬ (d == norm))).headD norm

/-- The representative color: the first non-empty color seen. -/
def specColor (ts : List Tag) : String :=
  ((colorsOf ts).filter (fun c => ¬ (c == ""))).headD ""

/-- First record with the given normalized text (the `Map` lookup). -/
def lookupRec (norm : String) (acc : List TagRec) : Option TagRec :=
  acc.find? (fun r => r.norm == norm)

/-- How an existing display value evolves over further occurrence
displays: it is frozen once it differs from the norm. -/
def absorbDisplay (norm v : String) (ds : List String) : String :=
  if v = norm then (ds.filter (fun d => ¬ (d == norm))).headD norm else v

/-- How an existing color evolves: frozen once non-empty. -/
def absorbColor (c : String) (cs : List String) : String :=
  if c = "" then (cs.filter (fun x => ¬ (x == ""))).headD "" else c

/-- Well-formedness of the accumulated record list: displays and norms
are non-empty (true for everything `stepTag` builds). -/
def WFRecs (acc : List TagRec) : Prop := ∀ r ∈ acc, r.display ≠ "" ∧ r.norm ≠ ""

theorem tagDisplayOf_ne_empty (raw : String) (h : normalizeTagText raw ≠ "") :
    tagDisplayOf raw ≠ "" := by
  intro h0
  apply h
  show jsLower (tagDisplayOf raw) = ""
  rw [h0]
  rfl

theorem absorbDisplay_nil (norm v : String) : absorbDisplay norm v [] = v := by
  unfold absorbDisplay
  split
  · next h => rw [h]; rfl
  · rfl

theorem absorbColor_nil (c : String) : absorbColor c [] = c := by
  unfold absorbColor
  split
  · next h => rw [h]; rfl
  · rfl

theorem absorbDisplay_append (norm v : String) (ds₁ ds₂ : List String) :
    absorbDisplay norm v (ds₁ ++ ds₂) =
      absorbDisplay norm (absorbDisplay norm v ds₁) ds₂ := by
  by_cases hv : v = norm
  · subst hv
    unfold absorbDisplay
    rw [if_pos rfl, if_pos rfl, List.filter_append]
    cases hf : ds₁.filter (fun d => ¬ (d == v)) with
    | nil => simp
    | cons d rest =>
      have hdmem : d ∈ ds₁.filter (fun x => ¬ (x == v)) := by
        rw [hf]
        exact List.mem_cons_self d rest
      have hd : ¬ d = v := by simpa using List.of_mem_filter hdmem
      simp [hd]
  · unfold absorbDisplay
    rw [if_neg hv, if_neg hv, if_neg hv]

theorem absorbColor_append (c : String) (cs₁ cs₂ : List String) :
    absorbColor c (cs₁ ++ cs₂) = absorbColor (absorbColor c cs₁) cs₂ := by
  by_cases hc : c = ""
  · subst hc
    unfold absorbColor
    rw [if_pos rfl, if_pos rfl, List.filter_append]
    cases hf : cs₁.filter (fun x => ¬ (x == "")) with
    | nil => simp
    | cons d rest =>
      have hdmem : d ∈ cs₁.filter (fun x => ¬ (x == "")) := by
        rw [hf]
        exact List.mem_cons_self d rest
      have hd : ¬ d = "" := by simpa using List.of_mem_filter hdmem
      simp [hd]
  · unfold absorbColor
    rw [if_neg hc, if_neg hc, if_neg hc]

theorem specDisplay_eq_absorb (norm : String) (ts : List Tag) :
    specDisplay norm ts = absorbDisplay norm norm (displaysOf ts) := by
  unfold specDisplay absorbDisplay
  rw [if_pos rfl]

theorem specColor_eq_absorb (ts : List Tag) :
    specColor ts = absorbColor "" (colorsOf ts) := by
  unfold specColor absorbColor
  rw [if_pos rfl]

end JournalApp

namespace JournalApp

/-- The occurrences of `norm` within a tag list. -/
def tagFilter (norm : String) (ts : List Tag) : List Tag :=
  ts.filter (fun t => normalizeTagText t.text == norm)

theorem updateRec_norm (d c : String) (b : Bool) (r : TagRec) :
    (updateRec d c b r).norm = r.norm := rfl

theorem updateRec_eq (d c : String) (b : Bool) (r : TagRec)
    (hr : r.display ≠ "") (hd : d ≠ "") (hnorm : r.norm ≠ "") :
    updateRec d c b r = { r with
      display := absorbDisplay r.norm r.display [d]
      color := absorbColor r.color [c]
      countOccurrences := r.countOccurrences + 1
      countEntries := r.countEntries + (if b then 0 else 1) } := by
  unfold updateRec absorbDisplay absorbColor
  by_cases h1 : r.display = r.norm <;> by_cases h2 : d = r.norm <;>
    by_cases h3 : r.color = "" <;> by_cases h4 : c = "" <;>
      cases b <;>
        simp [h1, h2, h3, h4, hr, hd, List.filter_cons]

theorem lookupRec_norm_eq {norm : String} {l : List TagRec} {r : TagRec}
    (h : lookupRec norm l = some r) : r.norm = norm := by
  have := List.find?_some h
  simpa using this

theorem lookupRec_map_update (norm : String) (g : TagRec → TagRec)
    (hg : ∀ r, (g r).norm = r.norm) (l : List TagRec) :
    lookupRec norm (l.map (fun r => if r.norm == norm then g r else r)) =
      (lookupRec norm l).map g := by
  induction l with
  | nil => rfl
  | cons x xs ih =>
    simp only [List.map_cons, lookupRec, List.find?_cons] at *
    by_cases hx : x.norm = norm
    · have hb : (x.norm == norm) = true := by simpa using hx
      rw [if_pos hb]
      have hgb : ((g x).norm == norm) = true := by rw [hg x]; exact hb
      rw [hgb, hb]
      rfl
    · have hb : (x.norm == norm) = false := by simpa using hx
      rw [if_neg (by simp [hb])]
      rw [hb]
      exact ih

theorem lookupRec_none_iff (norm : String) (l : List TagRec) :
    lookupRec norm l = none ↔ l.any (fun r => r.norm == norm) = false := by
  simp [lookupRec, List.find?_eq_none, List.any_eq_false]

/-- The seen-set update `stepTag` performs. -/
theorem stepTag_snd (acc : List TagRec) (seen : List String) (t : Tag) :
    (stepTag (acc, seen) t).2 =
      if normalizeTagText t.text = "" then seen
      else if seen.contains (normalizeTagText t.text) then seen
      else normalizeTagText t.text :: seen := by
  by_cases h0 : normalizeTagText t.text = "" <;> simp [stepTag, h0]

theorem stepTag_wf (acc : List TagRec) (seen : List String) (t : Tag)
    (hwf : WFRecs acc) : WFRecs ((stepTag (acc, seen) t).1) := by
  by_cases h0 : normalizeTagText t.text = ""
  · have hid : (stepTag (acc, seen) t).1 = acc := by simp [stepTag, h0]
    rw [hid]
    exact hwf
  · have hstep : (stepTag (acc, seen) t).1 =
        List.map (fun r => if (r.norm == normalizeTagText t.text) = true
            then updateRec (tagDisplayOf t.text) t.color
              (seen.contains (normalizeTagText t.text)) r
            else r)
          (if (acc.any fun r => r.norm == normalizeTagText t.text) = true then acc
           else acc ++ [⟨normalizeTagText t.text,
             strOr (tagDisplayOf t.text) (normalizeTagText t.text), 0, 0, t.color⟩]) := by
      simp [stepTag, h0]
    rw [hstep]
    have hwf₁ : WFRecs (if (acc.any fun r => r.norm == normalizeTagText t.text) = true then acc
        else acc ++ [⟨normalizeTagText t.text,
          strOr (tagDisplayOf t.text) (normalizeTagText t.text), 0, 0, t.color⟩]) := by
      split
      · exact hwf
      · intro r hr
        rcases List.mem_append.mp hr with hmem | hmem
        · exact hwf r hmem
        · rcases List.mem_singleton.mp hmem with rfl
          have hd := tagDisplayOf_ne_empty t.text h0
          exact ⟨by simp [strOr, hd], h0⟩
    intro r hr
    obtain ⟨r₀, hr₀, hrr⟩ := List.mem_map.mp hr
    have h₀ := hwf₁ r₀ hr₀
    rw [← hrr]
    split
    · constructor
      · show (if tagDisplayOf t.text ≠ "" ∧ _ then tagDisplayOf t.text else r₀.display) ≠ ""
        split
        · exact tagDisplayOf_ne_empty t.text h0
        · exact h₀.1
      · rw [updateRec_norm]
        exact h₀.2
    · exact h₀

end JournalApp

namespace JournalApp

theorem absorbDisplay_strOr (N d : String) (hd : d ≠ "") :
    absorbDisplay N (strOr d N) [d] = absorbDisplay N N [d] := by
  rw [strOr_of_ne d N hd]
  by_cases hdn : d = N <;> simp [absorbDisplay, hdn]

theorem absorbColor_self (c : String) : absorbColor c [c] = absorbColor "" [c] := by
  by_cases hc : c = "" <;> simp [absorbColor, hc]

theorem lookupRec_map_other (N norm' : String) (h : ¬ N = norm') (g : TagRec → TagRec)
    (hg : ∀ r, (g r).norm = r.norm) (l : List TagRec) :
    lookupRec norm' (l.map (fun r => if r.norm == N then g r else r)) =
      lookupRec norm' l := by
  induction l with
  | nil => rfl
  | cons x xs ih =>
    simp only [List.map_cons, lookupRec, List.find?_cons] at *
    by_cases hx : x.norm = N
    · have hb : (x.norm == N) = true := by simpa using hx
      rw [if_pos hb]
      have h1 : ((g x).norm == norm') = false := by
        rw [hg x]
        simp [hx, h]
      have h2 : (x.norm == norm') = false := by simp [hx, h]
      rw [h1, h2]
      exact ih
    · have hb : (x.norm == N) = false := by simpa using hx
      rw [if_neg (by simp [hb])]
      by_cases hx' : x.norm = norm'
      · have : (x.norm == norm') = true := by simpa using hx'
        rw [this]
      · have : (x.norm == norm') = false := by simpa using hx'
        rw [this]
        exact ih

theorem stepTag_same (acc : List TagRec) (seen : List String) (t : Tag)
    (hne : normalizeTagText t.text ≠ "") (hwf : WFRecs acc) :
    lookupRec (normalizeTagText t.text) ((stepTag (acc, seen) t).1) =
      some (match lookupRec (normalizeTagText t.text) acc with
        | some r => { r with
            display := absorbDisplay (normalizeTagText t.text) r.display [tagDisplayOf t.text]
            color := absorbColor r.color [t.color]
            countOccurrences := r.countOccurrences + 1
            countEntries := r.countEntries +
              (if seen.contains (normalizeTagText t.text) then 0 else 1) }
        | none => ⟨normalizeTagText t.text,
            absorbDisplay (normalizeTagText t.text) (normalizeTagText t.text)
              [tagDisplayOf t.text],
            (if seen.contains (normalizeTagText t.text) then 0 else 1),
            1,
            absorbColor "" [t.color]⟩) := by
  have hd : tagDisplayOf t.text ≠ "" := tagDisplayOf_ne_empty t.text hne
  have hstep : (stepTag (acc, seen) t).1 =
      List.map (fun r => if (r.norm == normalizeTagText t.text) = true
          then updateRec (tagDisplayOf t.text) t.color
            (seen.contains (normalizeTagText t.text)) r
          else r)
        (if (acc.any fun r => r.norm == normalizeTagText t.text) = true then acc
         else acc ++ [⟨normalizeTagText t.text,
           strOr (tagDisplayOf t.text) (normalizeTagText t.text), 0, 0, t.color⟩]) := by
    simp [stepTag, hne]
  rw [hstep]
  cases hl : lookupRec (normalizeTagText t.text) acc with
  | some r =>
    have hmem : r ∈ acc := List.mem_of_find?_eq_some hl
    have hany : (acc.any fun x => x.norm == normalizeTagText t.text) = true := by
      cases hq : acc.any fun x => x.norm == normalizeTagText t.text
      · rw [(lookupRec_none_iff _ acc).mpr hq] at hl
        cases hl
      · rfl
    rw [if_pos hany,
      lookupRec_map_update (normalizeTagText t.text) _ (fun x => updateRec_norm _ _ _ x) acc,
      hl]
    have hrn : r.norm = normalizeTagText t.text := lookupRec_norm_eq hl
    show some (updateRec (tagDisplayOf t.text) t.color
        (seen.contains (normalizeTagText t.text)) r) =
      some { r with
        display := absorbDisplay (normalizeTagText t.text) r.display [tagDisplayOf t.text]
        color := absorbColor r.color [t.color]
        countOccurrences := r.countOccurrences + 1
        countEntries := r.countEntries +
          (if seen.contains (normalizeTagText t.text) then 0 else 1) }
    rw [updateRec_eq _ _ _ r (hwf r hmem).1 hd (hwf r hmem).2]
    rw [hrn]
  | none =>
    have hany : (acc.any fun x => x.norm == normalizeTagText t.text) = false :=
      (lookupRec_none_iff _ acc).mp hl
    rw [if_neg (by simp [hany]), List.map_append]
    unfold lookupRec
    rw [List.find?_append]
    have h1 : (List.map (fun r => if (r.norm == normalizeTagText t.text) = true
        then updateRec (tagDisplayOf t.text) t.color
          (seen.contains (normalizeTagText t.text)) r
        else r) acc).find? (fun r => r.norm == normalizeTagText t.text) = none := by
      have hthis := lookupRec_map_update (normalizeTagText t.text)
        (updateRec (tagDisplayOf t.text) t.color (seen.contains (normalizeTagText t.text)))
        (fun x => updateRec_norm _ _ _ x) acc
      rw [hl] at hthis
      unfold lookupRec at hthis
      simpa using hthis
    rw [h1]
    simp only [List.map_cons, List.map_nil, List.find?_cons]
    have hfr : ((⟨normalizeTagText t.text,
        strOr (tagDisplayOf t.text) (normalizeTagText t.text), 0, 0,
        t.color⟩ : TagRec).norm == normalizeTagText t.text) = true := by simp
    rw [if_pos hfr]
    have hup : ((updateRec (tagDisplayOf t.text) t.color
        (seen.contains (normalizeTagText t.text))
        ⟨normalizeTagText t.text, strOr (tagDisplayOf t.text) (normalizeTagText t.text),
          0, 0, t.color⟩).norm == normalizeTagText t.text) = true := by
      rw [updateRec_norm]
      simp
    rw [hup]
    rw [updateRec_eq _ _ _ _ (by simp [strOr, hd]) hd (by exact hne)]
    simp only [Option.or_some]
    rw [absorbDisplay_strOr _ _ hd, absorbColor_self]
    cases seen.contains (normalizeTagText t.text) <;> rfl

theorem stepTag_other (norm' : String) (acc : List TagRec) (seen : List String) (t : Tag)
    (hne : ¬ normalizeTagText t.text = norm') :
    lookupRec norm' ((stepTag (acc, seen) t).1) = lookupRec norm' acc
  ∧ ((stepTag (acc, seen) t).2.contains norm') = seen.contains norm' := by
  by_cases h0 : normalizeTagText t.text = ""
  · constructor <;> simp [stepTag, h0]
  · have hstep : (stepTag (acc, seen) t).1 =
        List.map (fun r => if (r.norm == normalizeTagText t.text) = true
            then updateRec (tagDisplayOf t.text) t.color
              (seen.contains (normalizeTagText t.text)) r
            else r)
          (if (acc.any fun r => r.norm == normalizeTagText t.text) = true then acc
           else acc ++ [⟨normalizeTagText t.text,
             strOr (tagDisplayOf t.text) (normalizeTagText t.text), 0, 0, t.color⟩]) := by
      simp [stepTag, h0]
    constructor
    · rw [hstep]
      split
      · exact lookupRec_map_other _ norm' hne _ (fun x => updateRec_norm _ _ _ x) acc
      · rw [List.map_append]
        unfold lookupRec
        rw [List.find?_append]
        have h1 := lookupRec_map_other _ norm' hne
          (updateRec (tagDisplayOf t.text) t.color (seen.contains (normalizeTagText t.text)))
          (fun x => updateRec_norm _ _ _ x) acc
        unfold lookupRec at h1
        rw [h1]
        have h2 : (List.map (fun r => if (r.norm == normalizeTagText t.text) = true
            then updateRec (tagDisplayOf t.text) t.color
              (seen.contains (normalizeTagText t.text)) r
            else r) [⟨normalizeTagText t.text,
              strOr (tagDisplayOf t.text) (normalizeTagText t.text), 0, 0,
              t.color⟩]).find? (fun r => r.norm == norm') = none := by
          simp only [List.map_cons, List.map_nil, List.find?_cons]
          rw [if_pos (by simp)]
          have : ((updateRec (tagDisplayOf t.text) t.color
              (seen.contains (normalizeTagText t.text))
              ⟨normalizeTagText t.text,
                strOr (tagDisplayOf t.text) (normalizeTagText t.text), 0, 0,
                t.color⟩).norm == norm') = false := by
            rw [updateRec_norm]
            simpa using hne
          rw [this]
          rfl
        rw [h2, Option.or_none]
    · rw [stepTag_snd, if_neg h0]
      split
      · rfl
      · simp only [List.contains_cons]
        have hb : (norm' == normalizeTagText t.text) = false := by
          simp
          intro hx
          exact hne hx.symm
        rw [hb]
        simp

end JournalApp

namespace JournalApp

theorem foldTags_lookup (norm : String) (hn : norm ≠ "") (ts : List Tag) :
    ∀ (acc : List TagRec) (seen : List String), WFRecs acc →
    lookupRec norm ((ts.foldl stepTag (acc, seen)).1) =
      (match lookupRec norm acc with
       | some r => some { r with
           display := absorbDisplay norm r.display (displaysOf (tagFilter norm ts))
           color := absorbColor r.color (colorsOf (tagFilter norm ts))
           countOccurrences := r.countOccurrences + (tagFilter norm ts).length
           countEntries := r.countEntries +
             (if seen.contains norm = false ∧ (tagFilter norm ts).isEmpty = false
              then 1 else 0) }
       | none =>
         if (tagFilter norm ts).isEmpty then none
         else some ⟨norm, specDisplay norm (tagFilter norm ts),
           (if seen.contains norm then 0 else 1), (tagFilter norm ts).length,
           specColor (tagFilter norm ts)⟩) := by
  induction ts with
  | nil =>
    intro acc seen hwf
    cases hl : lookupRec norm acc with
    | some r =>
      simp [tagFilter, displaysOf, colorsOf, absorbDisplay_nil, absorbColor_nil, hl]
    | none =>
      simp [tagFilter, hl]
  | cons t ts' ih =>
    intro acc seen hwf
    rw [List.foldl_cons]
    have hIH := ih (stepTag (acc, seen) t).1 (stepTag (acc, seen) t).2
      (stepTag_wf acc seen t hwf)
    have hpack : ((stepTag (acc, seen) t).1, (stepTag (acc, seen) t).2) =
        stepTag (acc, seen) t := rfl
    rw [hpack] at hIH
    rw [hIH]
    by_cases ht : normalizeTagText t.text = norm
    · have hne : normalizeTagText t.text ≠ "" := by rw [ht]; exact hn
      have hsame := stepTag_same acc seen t hne hwf
      rw [ht] at hsame
      rw [hsame]
      have hseen : ((stepTag (acc, seen) t).2).contains norm = true := by
        rw [stepTag_snd, ht, if_neg hn]
        split
        · next hc => exact hc
        · simp
      rw [hseen]
      have hfil : tagFilter norm (t :: ts') = t :: tagFilter norm ts' := by
        simp [tagFilter, List.filter_cons, ht]
      rw [hfil]
      cases hl : lookupRec norm acc with
      | some r =>
        simp only []
        refine congrArg some ?_
        cases r with
        | mk rn rd rce rco rc =>
          simp only [TagRec.mk.injEq]
          refine ⟨trivial, ?_, ?_, ?_, ?_⟩
          · show absorbDisplay norm (absorbDisplay norm rd [tagDisplayOf t.text])
                (displaysOf (tagFilter norm ts')) = _
            rw [← absorbDisplay_append]
            simp [displaysOf]
          · cases hc : seen.contains norm <;> simp [hc]
          · simp only [List.length_cons]
            omega
          · show absorbColor (absorbColor rc [t.color]) (colorsOf (tagFilter norm ts')) = _
            rw [← absorbColor_append]
            simp [colorsOf]
      | none =>
        simp only []
        rw [if_neg (show ¬ ((t :: tagFilter norm ts').isEmpty = true) by simp)]
        refine congrArg some ?_
        simp only [TagRec.mk.injEq]
        refine ⟨trivial, ?_, ?_, ?_, ?_⟩
        · show absorbDisplay norm (absorbDisplay norm norm [tagDisplayOf t.text])
              (displaysOf (tagFilter norm ts')) = _
          rw [← absorbDisplay_append, specDisplay_eq_absorb]
          simp [displaysOf]
        · cases hc : seen.contains norm <;> simp [hc]
        · simp only [List.length_cons]
          omega
        · show absorbColor (absorbColor "" [t.color]) (colorsOf (tagFilter norm ts')) = _
          rw [← absorbColor_append, specColor_eq_absorb]
          simp [colorsOf]
    · have hother := stepTag_other norm acc seen t ht
      rw [hother.1, hother.2]
      have hfil : tagFilter norm (t :: ts') = tagFilter norm ts' := by
        simp only [tagFilter, List.filter_cons]
        rw [if_neg (by simpa using ht)]
      rw [hfil]

end JournalApp

namespace JournalApp

theorem foldTags_wf (ts : List Tag) :
    ∀ st : List TagRec × List String, WFRecs st.1 → WFRecs ((ts.foldl stepTag st).1) := by
  induction ts with
  | nil => exact fun st h => h
  | cons t ts' ih =>
    intro st h
    rw [List.foldl_cons]
    exact ih _ (stepTag_wf st.1 st.2 t h)

theorem stepEntry_wf (acc : List TagRec) (e : Entry) (hwf : WFRecs acc) :
    WFRecs (stepEntry acc e) :=
  foldTags_wf e.tags (acc, []) hwf

theorem stepEntry_lookup (norm : String) (hn : norm ≠ "") (acc : List TagRec) (e : Entry)
    (hwf : WFRecs acc) :
    lookupRec norm (stepEntry acc e) =
      (match lookupRec norm acc with
       | some r => some { r with
           display := absorbDisplay norm r.display (displaysOf (tagOccsOfEntry norm e))
           color := absorbColor r.color (colorsOf (tagOccsOfEntry norm e))
           countOccurrences := r.countOccurrences + (tagOccsOfEntry norm e).length
           countEntries := r.countEntries +
             (if (tagOccsOfEntry norm e).isEmpty = false then 1 else 0) }
       | none =>
         if (tagOccsOfEntry norm e).isEmpty then none
         else some ⟨norm, specDisplay norm (tagOccsOfEntry norm e), 1,
           (tagOccsOfEntry norm e).length, specColor (tagOccsOfEntry norm e)⟩) := by
  have h := foldTags_lookup norm hn e.tags acc [] hwf
  have hfil : tagFilter norm e.tags = tagOccsOfEntry norm e := rfl
  have hcontains : (([] : List String).contains norm) = false := rfl
  rw [hfil, hcontains] at h
  unfold stepEntry
  rw [h]
  cases hl : lookupRec norm acc with
  | some r => simp
  | none => rfl

theorem displaysOf_append (a b : List Tag) :
    displaysOf (a ++ b) = displaysOf a ++ displaysOf b := List.map_append _ a b

theorem colorsOf_append (a b : List Tag) :
    colorsOf (a ++ b) = colorsOf a ++ colorsOf b := List.map_append _ a b

theorem foldEntries_lookup (norm : String) (hn : norm ≠ "") (es : List Entry) :
    ∀ acc : List TagRec, WFRecs acc →
    lookupRec norm (es.foldl stepEntry acc) =
      (match lookupRec norm acc with
       | some r => some { r with
           display := absorbDisplay norm r.display (displaysOf (specOccs norm es))
           color := absorbColor r.color (colorsOf (specOccs norm es))
           countOccurrences := r.countOccurrences + (specOccs norm es).length
           countEntries := r.countEntries + specEntryCount norm es }
       | none =>
         if (specOccs norm es).isEmpty then none
         else some ⟨norm, specDisplay norm (specOccs norm es), specEntryCount norm es,
           (specOccs norm es).length, specColor (specOccs norm es)⟩) := by
  induction es with
  | nil =>
    intro acc hwf
    cases hl : lookupRec norm acc with
    | some r =>
      simp [specOccs, specEntryCount, hl, displaysOf, colorsOf,
        absorbDisplay_nil, absorbColor_nil]
    | none => simp [specOccs, hl]
  | cons e es' ih =>
    intro acc hwf
    rw [List.foldl_cons, ih (stepEntry acc e) (stepEntry_wf acc e hwf),
      stepEntry_lookup norm hn acc e hwf]
    have hocc : specOccs norm (e :: es') = tagOccsOfEntry norm e ++ specOccs norm es' := by
      simp [specOccs, List.flatMap_cons]
    have hcount : specEntryCount norm (e :: es') =
        specEntryCount norm es' +
          (if (tagOccsOfEntry norm e).isEmpty = false then 1 else 0) := by
      simp only [specEntryCount, List.countP_cons]
      cases hE : (tagOccsOfEntry norm e).isEmpty <;> simp [hE]
    rw [hocc, hcount]
    cases hl : lookupRec norm acc with
    | some r =>
      simp only []
      refine congrArg some ?_
      cases r with
      | mk rn rd rce rco rc =>
        simp only [TagRec.mk.injEq]
        refine ⟨trivial, ?_, ?_, ?_, ?_⟩
        · show absorbDisplay norm (absorbDisplay norm rd (displaysOf (tagOccsOfEntry norm e)))
              (displaysOf (specOccs norm es')) = _
          rw [← absorbDisplay_append]
          simp [displaysOf, List.map_append]
        · cases hE : (tagOccsOfEntry norm e).isEmpty <;> simp [hE] <;> omega
        · simp only [List.length_append]
          omega
        · show absorbColor (absorbColor rc (colorsOf (tagOccsOfEntry norm e)))
              (colorsOf (specOccs norm es')) = _
          rw [← absorbColor_append]
          simp [colorsOf, List.map_append]
    | none =>
      cases hE : (tagOccsOfEntry norm e).isEmpty with
      | true =>
        have hnil : tagOccsOfEntry norm e = [] := by
          cases hq : tagOccsOfEntry norm e
          · rfl
          · rw [hq] at hE
            cases hE
        simp [hnil]
      | false =>
        have hne' : tagOccsOfEntry norm e ≠ [] := by
          intro h0
          rw [h0] at hE
          cases hE
        simp only [Bool.false_eq_true, if_false]
        rw [if_neg (show ¬ ((tagOccsOfEntry norm e ++ specOccs norm es').isEmpty = true) by
          intro hx
          rcases List.append_eq_nil.mp (by simpa using hx) with ⟨h1, _⟩
          exact hne' h1)]
        refine congrArg some ?_
        simp only [TagRec.mk.injEq]
        refine ⟨trivial, ?_, ?_, ?_, ?_⟩
        · show absorbDisplay norm (specDisplay norm (tagOccsOfEntry norm e))
              (displaysOf (specOccs norm es')) = _
          rw [specDisplay_eq_absorb, ← absorbDisplay_append, ← displaysOf_append,
            ← specDisplay_eq_absorb]
        · rw [if_pos trivial]
          omega
        · simp only [List.length_append]
        · show absorbColor (specColor (tagOccsOfEntry norm e))
              (colorsOf (specOccs norm es')) = _
          rw [specColor_eq_absorb, ← absorbColor_append, ← colorsOf_append,
            ← specColor_eq_absorb]

end JournalApp

namespace JournalApp

/-- Pairwise-distinct normalized keys: each normalized tag has at most
one record, as for the `Map` keyed by `norm`. -/
def NormsOK (acc : List TagRec) : Prop :=
  acc.Pairwise (fun a b => a.norm ≠ b.norm)

theorem stepTag_normsOK (acc : List TagRec) (seen : List String) (t : Tag)
    (h : NormsOK acc) : NormsOK ((stepTag (acc, seen) t).1) := by
  by_cases h0 : normalizeTagText t.text = ""
  · have hid : (stepTag (acc, seen) t).1 = acc := by simp [stepTag, h0]
    rw [hid]
    exact h
  · have hstep : (stepTag (acc, seen) t).1 =
        List.map (fun r => if (r.norm == normalizeTagText t.text) = true
            then updateRec (tagDisplayOf t.text) t.color
              (seen.contains (normalizeTagText t.text)) r
            else r)
          (if (acc.any fun r => r.norm == normalizeTagText t.text) = true then acc
           else acc ++ [⟨normalizeTagText t.text,
             strOr (tagDisplayOf t.text) (normalizeTagText t.text), 0, 0, t.color⟩]) := by
      simp [stepTag, h0]
    rw [hstep]
    have h₁ : NormsOK (if (acc.any fun r => r.norm == normalizeTagText t.text) = true then acc
        else acc ++ [⟨normalizeTagText t.text,
          strOr (tagDisplayOf t.text) (normalizeTagText t.text), 0, 0, t.color⟩]) := by
      split
      · exact h
      · next hany =>
        rw [NormsOK, List.pairwise_append]
        refine ⟨h, List.pairwise_singleton _ _, ?_⟩
        intro a ha b hb
        rcases List.mem_singleton.mp hb with rfl
        show a.norm ≠ normalizeTagText t.text
        intro hEq
        exact hany (List.any_eq_true.mpr ⟨a, ha, by simp [hEq]⟩)
    have hpres : ∀ r : TagRec,
        ((fun r => if (r.norm == normalizeTagText t.text) = true
            then updateRec (tagDisplayOf t.text) t.color
              (seen.contains (normalizeTagText t.text)) r
            else r) r).norm = r.norm := by
      intro r
      by_cases hc : (r.norm == normalizeTagText t.text) = true
      · simp only [hc, if_true, updateRec_norm]
      · simp [hc]
    rw [NormsOK, List.pairwise_map]
    refine List.Pairwise.imp ?_ h₁
    intro a b hab
    rw [hpres a, hpres b]
    exact hab

theorem foldTags_normsOK (ts : List Tag) :
    ∀ st : List TagRec × List String, NormsOK st.1 → NormsOK ((ts.foldl stepTag st).1) := by
  induction ts with
  | nil => exact fun st h => h
  | cons t ts' ih =>
    intro st h
    rw [List.foldl_cons]
    exact ih _ (stepTag_normsOK st.1 st.2 t h)

theorem stepEntry_normsOK (acc : List TagRec) (e : Entry) (h : NormsOK acc) :
    NormsOK (stepEntry acc e) :=
  foldTags_normsOK e.tags (acc, []) h

theorem foldEntries_normsOK (es : List Entry) :
    ∀ acc : List TagRec, NormsOK acc → NormsOK (es.foldl stepEntry acc) := by
  induction es with
  | nil => exact fun acc h => h
  | cons e es' ih =>
    intro acc h
    rw [List.foldl_cons]
    exact ih _ (stepEntry_normsOK acc e h)

theorem buildTagCore_normsOK (es : List Entry) : NormsOK (buildTagCore es) :=
  foldEntries_normsOK es [] List.Pairwise.nil

theorem foldEntries_wfRecs (es : List Entry) :
    ∀ acc : List TagRec, WFRecs acc → WFRecs (es.foldl stepEntry acc) := by
  induction es with
  | nil => exact fun acc h => h
  | cons e es' ih =>
    intro acc h
    rw [List.foldl_cons]
    exact ih _ (stepEntry_wf acc e h)

theorem buildTagCore_wfRecs (es : List Entry) : WFRecs (buildTagCore es) :=
  foldEntries_wfRecs es [] (by intro r hr; cases hr)

/-- With pairwise-distinct keys, the `Map` lookup of a member's key
returns that member. -/
theorem lookupRec_of_mem {l : List TagRec} (hOK : NormsOK l) {r : TagRec} (hr : r ∈ l) :
    lookupRec r.norm l = some r := by
  induction l with
  | nil => cases hr
  | cons x xs ih =>
    rcases List.pairwise_cons.mp hOK with ⟨hx, hxs⟩
    rcases List.mem_cons.mp hr with heq | hmem
    · rw [heq]
      show (x :: xs).find? (fun rr => rr.norm == x.norm) = some x
      exact List.find?_cons_of_pos _ (by simp)
    · have hne : x.norm ≠ r.norm := hx r hmem
      show (x :: xs).find? (fun rr => rr.norm == r.norm) = some r
      rw [List.find?_cons_of_neg _ (by simp [hne])]
      exact ih hxs hmem

end JournalApp

namespace JournalApp

/-- The Boolean comparator of the tag index, read as a proposition:
`countEntries` descending, display text (`display || norm`) ascending. -/
theorem tagRecLe_iff (a b : TagRec) : tagRecLe a b = true ↔
    (b.countEntries < a.countEntries ∨
      (a.countEntries = b.countEntries ∧
        strCmp (strOr a.display a.norm) (strOr b.display b.norm) ≠ .gt)) := by
  unfold tagRecLe
  by_cases h : a.countEntries = b.countEntries
  · rw [if_neg (by simp [h])]
    cases hc : strCmp (strOr a.display a.norm) (strOr b.display b.norm) <;> simp [h, hc]
  · rw [if_pos (by simp [h])]
    simp only [decide_eq_true_eq]
    constructor
    · intro hle
      exact Or.inl (by omega)
    · intro hor
      rcases hor with hlt | ⟨heq, _⟩
      · omega
      · exact absurd heq h

theorem tagRecLe_trans (a b c : TagRec) (h₁ : tagRecLe a b = true)
    (h₂ : tagRecLe b c = true) : tagRecLe a c = true := by
  rw [tagRecLe_iff] at h₁ h₂ ⊢
  rcases h₁ with h₁ | ⟨h₁e, h₁s⟩ <;> rcases h₂ with h₂ | ⟨h₂e, h₂s⟩
  · exact Or.inl (by omega)
  · exact Or.inl (by omega)
  · exact Or.inl (by omega)
  · exact Or.inr ⟨h₁e.trans h₂e, strCmp_notGt_trans h₁s h₂s⟩

theorem tagRecLe_total (a b : TagRec) : (tagRecLe a b || tagRecLe b a) = true := by
  rw [Bool.or_eq_true_iff, tagRecLe_iff, tagRecLe_iff]
  by_cases h : a.countEntries = b.countEntries
  · rcases strCmp_notGt_total (strOr a.display a.norm) (strOr b.display b.norm) with hs | hs
    · exact Or.inl (Or.inr ⟨h, hs⟩)
    · exact Or.inr (Or.inr ⟨h.symm, hs⟩)
  · rcases Nat.lt_or_ge a.countEntries b.countEntries with hlt | hge
    · exact Or.inr (Or.inl hlt)
    · exact Or.inl (Or.inl (by omega))

/-- The unsorted index, looked up at any non-empty normalized key:
exactly the specification record, or nothing when the tag never occurs. -/
theorem buildTagCore_lookup (norm : String) (hn : norm ≠ "") (es : List Entry) :
    lookupRec norm (buildTagCore es) =
      (if (specOccs norm es).isEmpty then none
       else some ⟨norm, specDisplay norm (specOccs norm es), specEntryCount norm es,
         (specOccs norm es).length, specColor (specOccs norm es)⟩) := by
  have h := foldEntries_lookup norm hn es [] (by intro r hr; cases hr)
  unfold buildTagCore
  rw [h]
  rfl

end JournalApp

namespace JournalApp

/-- C7: for every entry set the tag index groups occurrences by
normalized text (trimmed, whitespace-collapsed, case-folded): every
record has a non-empty normalized key that actually occurs, its display
is the first collapsed casing differing from the normalized form (else
the normalized form itself), `countEntries` counts each entry at most
once per normalized tag, `countOccurrences` counts every occurrence,
and the color is the first non-empty one; every occurring normalized tag
has a record, keys are pairwise distinct, and the records are sorted by
`countEntries` descending then display text (`display || norm`)
ascending. -/
theorem buildTagIndexFromEntries_spec (es : List Entry) :
    (∀ r ∈ buildTagIndexFromEntries es,
        r.norm ≠ "" ∧
        specOccs r.norm es ≠ [] ∧
        r.display = specDisplay r.norm (specOccs r.norm es) ∧
        r.countEntries = specEntryCount r.norm es ∧
        r.countOccurrences = (specOccs r.norm es).length ∧
        r.color = specColor (specOccs r.norm es)) ∧
    (∀ norm : String, norm ≠ "" → specOccs norm es ≠ [] →
        ∃ r ∈ buildTagIndexFromEntries es, r.norm = norm) ∧
    (buildTagIndexFromEntries es).Pairwise (fun a b => a.norm ≠ b.norm) ∧
    (buildTagIndexFromEntries es).Pairwise (fun a b =>
        b.countEntries < a.countEntries ∨
          (a.countEntries = b.countEntries ∧
            strCmp (strOr a.display a.norm) (strOr b.display b.norm) ≠ .gt)) := by
  have hperm := sortLe_perm tagRecLe (buildTagCore es)
  have hOK := buildTagCore_normsOK es
  have hwf := buildTagCore_wfRecs es
  refine ⟨?_, ?_, ?_, ?_⟩
  · intro r hr
    have hmem : r ∈ buildTagCore es := hperm.mem_iff.mp hr
    have hn : r.norm ≠ "" := (hwf r hmem).2
    have hlook : lookupRec r.norm (buildTagCore es) = some r := lookupRec_of_mem hOK hmem
    rw [buildTagCore_lookup r.norm hn es] at hlook
    by_cases hE : (specOccs r.norm es).isEmpty = true
    · rw [if_pos hE] at hlook
      cases hlook
    · rw [if_neg hE] at hlook
      have hne : specOccs r.norm es ≠ [] := by
        intro h0
        rw [h0] at hE
        exact hE rfl
      have heq := Option.some.inj hlook
      exact ⟨hn, hne, (congrArg TagRec.display heq).symm,
        (congrArg TagRec.countEntries heq).symm,
        (congrArg TagRec.countOccurrences heq).symm,
        (congrArg TagRec.color heq).symm⟩
  · intro norm hnn hocc
    have hE : (specOccs norm es).isEmpty = false := by
      cases hq : specOccs norm es with
      | nil => exact absurd hq hocc
      | cons a l => rfl
    have hlook := buildTagCore_lookup norm hnn es
    rw [if_neg (show ¬ ((specOccs norm es).isEmpty = true) by
      rw [hE]; exact Bool.false_ne_true)] at hlook
    have hmemcore := List.mem_of_find?_eq_some hlook
    exact ⟨_, hperm.mem_iff.mpr hmemcore, rfl⟩
  · exact (hperm.pairwise_iff (fun h => Ne.symm h)).mpr hOK
  · have hsorted := sortLe_pairwise tagRecLe tagRecLe_trans tagRecLe_total (buildTagCore es)
    exact List.Pairwise.imp (fun hab => (tagRecLe_iff _ _).mp hab) hsorted

/-- An entry whose tag occurrences are `"blue"` (no color) then
`"Blue "` (red). -/
def cexTagEntry : Entry :=
  ⟨"e1", "default", "2025-01-01", "", "", "", [⟨"t1", "blue", ""⟩, ⟨"t2", "Blue ", "red"⟩],
    [], "2025-01-01T10:00:00.000Z", "2025-01-01T10:00:00.000Z"⟩

/-- C7 counterexample: the first non-empty original casing seen is
`"blue"` (the first occurrence), yet the index record displays `"Blue"`:
the code keeps overwriting the display while it still equals the
normalized form, so a later differing casing wins. -/
theorem buildTagIndex_display_counterexample :
    buildTagIndexFromEntries [cexTagEntry] = [⟨"blue", "Blue", 1, 2, "red"⟩] ∧
    (cexTagEntry.tags.map (fun t => tagDisplayOf t.text)).head? = some "blue" ∧
    ("Blue" : String) ≠ "blue" := by decide

/-- Two entries carrying the casings `"Blue "`, `"blue"` and `" BLUE"`. -/
def wTagEntry1 : Entry :=
  ⟨"e1", "default", "2025-01-01", "", "", "", [⟨"t1", "Blue ", "red"⟩, ⟨"t2", "blue", ""⟩],
    [], "2025-01-01T10:00:00.000Z", "2025-01-01T10:00:00.000Z"⟩

def wTagEntry2 : Entry :=
  ⟨"e2", "default", "2025-01-02", "", "", "", [⟨"t3", " BLUE", "green"⟩],
    [], "2025-01-02T10:00:00.000Z", "2025-01-02T10:00:00.000Z"⟩

/-- Witness for C7: `"Blue "`, `"blue"`, `" BLUE"` all normalize to
`"blue"` and collapse into the single record
`⟨"blue", "Blue", 2, 3, "red"⟩`: the entry count is 2 (once per entry,
though the first entry holds the tag twice), the occurrence count 3. -/
theorem buildTagIndexFromEntries_spec_witness :
    (∃ r ∈ buildTagIndexFromEntries [wTagEntry1, wTagEntry2], r.norm = "blue") ∧
    buildTagIndexFromEntries [wTagEntry1, wTagEntry2] = [⟨"blue", "Blue", 2, 3, "red"⟩] ∧
    normalizeTagText "Blue " = "blue" ∧ normalizeTagText " BLUE" = "blue" ∧
    normalizeTagText "blue" = "blue" :=
  ⟨(buildTagIndexFromEntries_spec [wTagEntry1, wTagEntry2]).2.1 "blue" (by decide) (by decide),
   by decide, by decide, by decide, by decide⟩

end JournalApp
